import Mathlib

/-!
Shallow embedding of the education-loan amortization program
(`education_loan_app.py`) and proofs about its specification claims.

The program consists of three parts:
* `get_annual_rate_for_date` — the rate resolver;
* `separate_disbursements_amortization` — the monthly amortization engine;
* `find_required_emi_for_target_months` — the binary search for the minimal EMI.

Python floats are modelled as exact rationals (`ℚ`); pandas Timestamps as a
calendar `Date` record; DataFrames as lists of records, in row order.
-/

/-! ## Calendar dates

A pandas Timestamp is modelled by its (year, month, day) triple, compared
lexicographically.  `addMonths` models `pd.DateOffset(months = n)`: it advances
the month count and clamps the day to the length of the target month, which is
also the behaviour of `pd.DateOffset(years = k)` (= 12·k months).
-/

structure Date where
  year : Int
  month : Nat
  day : Nat
deriving DecidableEq, Repr

def Date.le (a b : Date) : Prop :=
  a.year < b.year ∨ (a.year = b.year ∧ (a.month < b.month ∨ (a.month = b.month ∧ a.day ≤ b.day)))

def Date.lt (a b : Date) : Prop :=
  a.year < b.year ∨ (a.year = b.year ∧ (a.month < b.month ∨ (a.month = b.month ∧ a.day < b.day)))

instance : LE Date := ⟨Date.le⟩
instance : LT Date := ⟨Date.lt⟩

instance (a b : Date) : Decidable (a ≤ b) := by
  change Decidable (Date.le a b); unfold Date.le; exact inferInstance

instance (a b : Date) : Decidable (a < b) := by
  change Decidable (Date.lt a b); unfold Date.lt; exact inferInstance

theorem Date.le_def (a b : Date) : a ≤ b ↔
    (a.year < b.year ∨ (a.year = b.year ∧ (a.month < b.month ∨ (a.month = b.month ∧ a.day ≤ b.day)))) :=
  Iff.rfl

theorem Date.lt_def (a b : Date) : a < b ↔
    (a.year < b.year ∨ (a.year = b.year ∧ (a.month < b.month ∨ (a.month = b.month ∧ a.day < b.day)))) :=
  Iff.rfl

theorem Date.le_trans {a b c : Date} (h1 : a ≤ b) (h2 : b ≤ c) : a ≤ c := by
  rw [Date.le_def] at *
  omega

theorem Date.le_total (a b : Date) : a ≤ b ∨ b ≤ a := by
  rw [Date.le_def, Date.le_def]
  omega

/-- Number of days of a calendar month (Gregorian, with leap years). -/
def daysInMonth (y : Int) (m : Nat) : Nat :=
  if m = 2 then (if y % 4 = 0 ∧ (y % 100 ≠ 0 ∨ y % 400 = 0) then 29 else 28)
  else if m = 4 ∨ m = 6 ∨ m = 9 ∨ m = 11 then 30 else 31

theorem daysInMonth_pos (y : Int) (m : Nat) : 1 ≤ daysInMonth y m := by
  unfold daysInMonth
  split <;> [split <;> omega; split <;> omega]

/-- pd.DateOffset(months = n) for n ≥ 0: advance by n months, clamping the day
to the length of the target month.  pd.DateOffset(years = k) coincides with
addMonths (12 * k). -/
def Date.addMonths (d : Date) (n : Nat) : Date :=
  let t : Int := d.year * 12 + (d.month : Int) - 1 + (n : Int)
  let y := t / 12
  let m := (t % 12).toNat + 1
  ⟨y, m, min d.day (daysInMonth y m)⟩

def firstOfMonth (d : Date) : Date := ⟨d.year, d.month, 1⟩

theorem Date.addMonths_day_le (d : Date) (n : Nat) : (d.addMonths n).day ≤ d.day :=
  min_le_left _ _

theorem Date.addMonths_day_one (d : Date) (hd : d.day = 1) (n : Nat) :
    (d.addMonths n).day = 1 := by
  have h := daysInMonth_pos (d.addMonths n).year (d.addMonths n).month
  have h2 := Date.addMonths_day_le d n
  unfold Date.addMonths at *
  simp only at *
  omega

/-! ## The monthly period grid

`pd.date_range(start, start + DateOffset(months = max_months), freq = MS)`
enumerates the month-first dates lying in the closed interval from `start` to
`start + max_months` months.  When `start` is itself a month first the grid
contains `max_months + 1` dates starting at `start`; otherwise it contains
`max_months` dates starting at the first of the following month (the interval
end `start + max_months months` keeps the day-of-month of `start`, so the month
first of its month is always in the interval, and no later month first is).
-/

def periodDates (start : Date) (maxMonths : Nat) : List Date :=
  let first := if start.day = 1 then start else firstOfMonth (start.addMonths 1)
  let cnt := if start.day = 1 then maxMonths + 1 else maxMonths
  (List.range cnt).map (fun k => first.addMonths k)

theorem periodDates_length (start : Date) (maxMonths : Nat) :
    (periodDates start maxMonths).length ≤ maxMonths + 1 := by
  unfold periodDates
  simp only [List.length_map, List.length_range]
  split <;> omega

theorem periodDates_day_one (start : Date) (maxMonths : Nat) :
    ∀ d ∈ periodDates start maxMonths, d.day = 1 := by
  intro d hd
  unfold periodDates at hd
  simp only [List.mem_map, List.mem_range] at hd
  obtain ⟨k, -, rfl⟩ := hd
  split
  · exact Date.addMonths_day_one start (by assumption) k
  · exact Date.addMonths_day_one _ rfl k

/-! ## Data rows -/

structure DisbRow where
  disbursement_date : Date
  amount : ℚ
deriving DecidableEq, Repr

structure PayRow where
  payment_date : Date
  amount : ℚ
deriving DecidableEq, Repr

structure RateRow where
  effective_date : Date
  annual_rate : ℚ
deriving DecidableEq, Repr

/-! ## Rate resolver (value view)

`get_annual_rate_for_date(date, df_rate_schedule, default_rate)`:
if the schedule is empty return the default; otherwise sort the schedule by
effective date, keep the rows whose effective date is on or before `date`, and
return the rate of the last remaining row (the most recent applicable rate),
falling back to the default when no row remains.
-/

def rateRowLe (a b : RateRow) : Prop := a.effective_date ≤ b.effective_date

instance : DecidableRel rateRowLe := fun a b =>
  inferInstanceAs (Decidable (a.effective_date ≤ b.effective_date))

instance : IsTotal RateRow rateRowLe := ⟨fun _ _ => Date.le_total _ _⟩

instance : IsTrans RateRow rateRowLe := ⟨fun _ _ _ => Date.le_trans⟩

def get_annual_rate_for_date (date : Date) (df_rate_schedule : List RateRow)
    (default_rate : ℚ) : ℚ :=
  if df_rate_schedule = [] then default_rate
  else
    let sorted := List.insertionSort rateRowLe df_rate_schedule
    let applicable := sorted.filter (fun r => r.effective_date ≤ date)
    match applicable.getLast? with
    | none => default_rate
    | some latest_row => latest_row.annual_rate

/-! ## Rate resolver (frame view, for the side-effect claim)

The Python body starts with an in-place column assignment on the DataFrame the
caller passed in:

  df_rate_schedule[effective_date] = pd.to_datetime(df_rate_schedule[effective_date])

(the subsequent sort_values rebinds the local name to a copy and does not touch
the argument).  To observe this effect a schedule cell is either a raw (string)
date or an already-converted datetime, and the function is embedded as
returning the rate together with the final value of the caller's schedule.
-/

inductive DateCell where
  | raw (d : Date)
  | dt (d : Date)
deriving DecidableEq, Repr

/-- pd.to_datetime on one cell: parse a raw cell, leave a datetime cell as is. -/
def to_datetime : DateCell → DateCell
  | .raw d => .dt d
  | .dt d => .dt d

def DateCell.val : DateCell → Date
  | .raw d => d
  | .dt d => d

structure RateRowCell where
  effective_date : DateCell
  annual_rate : ℚ
deriving DecidableEq, Repr

def rateRowCellLe (a b : RateRowCell) : Prop := a.effective_date.val ≤ b.effective_date.val

instance : DecidableRel rateRowCellLe := fun a b =>
  inferInstanceAs (Decidable (a.effective_date.val ≤ b.effective_date.val))

instance : IsTotal RateRowCell rateRowCellLe := ⟨fun _ _ => Date.le_total _ _⟩

instance : IsTrans RateRowCell rateRowCellLe := ⟨fun _ _ _ => Date.le_trans⟩

/-- The resolver together with its effect on the schedule argument: the result
value, paired with the state of the caller's DataFrame when the call returns. -/
def get_annual_rate_for_date_frame (date : Date) (df_rate_schedule : List RateRowCell)
    (default_rate : ℚ) : ℚ × List RateRowCell :=
  if df_rate_schedule = [] then (default_rate, df_rate_schedule)
  else
    let converted := df_rate_schedule.map
      (fun r => { r with effective_date := to_datetime r.effective_date })
    let sorted := List.insertionSort rateRowCellLe converted
    let applicable := sorted.filter (fun r => r.effective_date.val ≤ date)
    (match applicable.getLast? with
     | none => default_rate
     | some latest_row => latest_row.annual_rate, converted)

/-! ## Amortization engine

`separate_disbursements_amortization` iterates the period grid.  Each period:
look up the lumpsum scheduled exactly on the period date; accrue interest
`principal_outstanding * annual_rate / 12` on every tranche that is not closed
(closed = principal and accrued simple interest both ≤ 0; the source computes
the same formula in both the simple and the compound branch); allocate the
pooled payment to interest proportionally to each tranche's share of the total
interest due, capped at that due; allocate the remainder to principal
proportionally to each tranche's share of the total positive outstanding
principal, capped at that outstanding; update each tranche (unpaid interest
accrues separately in the simple window and capitalizes into principal past
it; a positive accrued-simple-interest balance of a tranche past its window is
then capitalized and reset); emit the period row; stop once the reported
ending principal and ending simple interest are both below 1e-8.
-/

structure Tranche where
  id : Nat
  disbursement_date : Date
  principal_outstanding : ℚ
  accrued_simple_interest : ℚ
deriving DecidableEq, Repr

structure Row where
  period : Nat
  date : Date
  interest_this_month : ℚ
  interest_paid : ℚ
  principal_paid : ℚ
  extra_payment : ℚ
  ending_total_principal : ℚ
  ending_total_simple_interest : ℚ
deriving DecidableEq, Repr

/-- Engine parameters that stay fixed during a run. -/
structure Params where
  sched : List RateRow
  defaultRate : ℚ
  emi : ℚ
  simpleYears : Nat
deriving Repr

/-- Sum of the payment amounts scheduled exactly on the given date. -/
def lumpsumOn (pays : List PayRow) (d : Date) : ℚ :=
  ((pays.filter (fun p => p.payment_date = d)).map (fun p => p.amount)).sum

/-- Sum of the positive entries of a list (the source sums with a positivity
guard in the generator expression). -/
def sumPos (xs : List ℚ) : ℚ := (xs.filter (fun x => 0 < x)).sum

/-- End of the simple-interest window of a tranche:
disbursement_date + DateOffset(years = simple_years). -/
def simplePhaseEnd (simpleYears : Nat) (t : Tranche) : Date :=
  t.disbursement_date.addMonths (12 * simpleYears)

/-- Interest accrued by one tranche this period: zero if the tranche is fully
cleared, otherwise principal times the monthly rate (the source's simple and
compound branches compute the same expression). -/
def interestFor (P : Params) (date : Date) (t : Tranche) : ℚ :=
  if t.principal_outstanding ≤ 0 ∧ t.accrued_simple_interest ≤ 0 then 0
  else t.principal_outstanding * (get_annual_rate_for_date date P.sched P.defaultRate / 12)

/-- Interest allocated to one tranche: proportional to its share of the total
interest due, capped at its own interest due; zero when either total is not
positive or its own due is not positive. -/
def interestPaidFor (totalInterest totalPayment portion : ℚ) : ℚ :=
  if 0 < totalInterest ∧ 0 < totalPayment then
    if portion ≤ 0 then 0
    else min (totalPayment * (portion / totalInterest)) portion
  else 0

/-- Principal allocated to one tranche from the payment left after interest:
proportional to its share of the total positive outstanding principal, capped
at its own outstanding; zero when any of the guards fails. -/
def principalPaidFor (leftover totalOut : ℚ) (t : Tranche) : ℚ :=
  if 0 < leftover ∧ 0 < totalOut ∧ 0 < t.principal_outstanding then
    min (leftover * (t.principal_outstanding / totalOut)) t.principal_outstanding
  else 0

/-- Phase-transition capitalization: move a positive accrued-simple-interest
balance into principal and reset it. -/
def capitalize (t : Tranche) : Tranche :=
  if 0 < t.accrued_simple_interest then
    { t with principal_outstanding := t.principal_outstanding + t.accrued_simple_interest,
             accrued_simple_interest := 0 }
  else t

/-- Per-tranche state update of one period, given its interest due, interest
paid and principal paid: unpaid interest accrues (simple window) or
capitalizes (past it), principal paid is subtracted, and past the window any
remaining positive accrued simple interest is capitalized. -/
def applyPayment (simpleYears : Nat) (date : Date) (due ipaid ppaid : ℚ)
    (t : Tranche) : Tranche :=
  let unpaid := due - ipaid
  let t1 :=
    if date < simplePhaseEnd simpleYears t then
      { t with accrued_simple_interest := t.accrued_simple_interest + unpaid }
    else
      { t with principal_outstanding := t.principal_outstanding + unpaid }
  let t2 := { t1 with principal_outstanding := t1.principal_outstanding - ppaid }
  if date < simplePhaseEnd simpleYears t then t2 else capitalize t2

/-- Interest paid to one tranche this period (its entry of interest_paid_list). -/
def tranchePaidInterest (P : Params) (pays : List PayRow) (date : Date)
    (ts : List Tranche) (t : Tranche) : ℚ :=
  interestPaidFor ((ts.map (interestFor P date)).sum) (P.emi + lumpsumOn pays date)
    (interestFor P date t)

/-- Principal paid to one tranche this period (its entry of principal_paid_list). -/
def tranchePaidPrincipal (P : Params) (pays : List PayRow) (date : Date)
    (ts : List Tranche) (t : Tranche) : ℚ :=
  principalPaidFor
    (P.emi + lumpsumOn pays date - (ts.map (tranchePaidInterest P pays date ts)).sum)
    (sumPos (ts.map (fun t => t.principal_outstanding))) t

/-- One period of the engine: the emitted row and the updated tranche list. -/
def periodStep (P : Params) (pays : List PayRow) (idx : Nat) (date : Date)
    (ts : List Tranche) : Row × List Tranche :=
  let lumpsum := lumpsumOn pays date
  let ts2 := ts.map (fun t =>
    applyPayment P.simpleYears date (interestFor P date t)
      (tranchePaidInterest P pays date ts t) (tranchePaidPrincipal P pays date ts t) t)
  ({ period := idx
     date := date
     interest_this_month := (ts.map (interestFor P date)).sum
     interest_paid := (ts.map (tranchePaidInterest P pays date ts)).sum
     principal_paid := (ts.map (tranchePaidPrincipal P pays date ts)).sum
     extra_payment := lumpsum
     ending_total_principal := sumPos (ts2.map (fun t => t.principal_outstanding))
     ending_total_simple_interest := sumPos (ts2.map (fun t => t.accrued_simple_interest)) },
   ts2)

/-- The stop test applied to the just-emitted row: the loan is fully retired
when both reported ending balances are below 1e-8. -/
def stopCond (r : Row) : Prop :=
  r.ending_total_principal < 1 / 100000000 ∧ r.ending_total_simple_interest < 1 / 100000000

instance (r : Row) : Decidable (stopCond r) := by
  unfold stopCond; exact inferInstance

/-- The period loop: one row per date, stopping right after a row that passes
the stop test. -/
def runAux (P : Params) (pays : List PayRow) :
    List Date → Nat → List Tranche → List Row × List Tranche
  | [], _, ts => ([], ts)
  | d :: ds, idx, ts =>
    let step := periodStep P pays idx d ts
    if stopCond step.1 then ([step.1], step.2)
    else
      let rest := runAux P pays ds (idx + 1) step.2
      (step.1 :: rest.1, rest.2)

def disbRowLe (a b : DisbRow) : Prop := a.disbursement_date ≤ b.disbursement_date

instance : DecidableRel disbRowLe := fun a b =>
  inferInstanceAs (Decidable (a.disbursement_date ≤ b.disbursement_date))

instance : IsTotal DisbRow disbRowLe := ⟨fun _ _ => Date.le_total _ _⟩

instance : IsTrans DisbRow disbRowLe := ⟨fun _ _ _ => Date.le_trans⟩

def payRowLe (a b : PayRow) : Prop := a.payment_date ≤ b.payment_date

instance : DecidableRel payRowLe := fun a b =>
  inferInstanceAs (Decidable (a.payment_date ≤ b.payment_date))

instance : IsTotal PayRow payRowLe := ⟨fun _ _ => Date.le_total _ _⟩

instance : IsTrans PayRow payRowLe := ⟨fun _ _ _ => Date.le_trans⟩

/-- Initial tranches: the disbursement rows sorted by date, each getting its
positional index as id, its amount as outstanding principal, and zero accrued
simple interest. -/
def buildTranches (df_disb : List DisbRow) : List Tranche :=
  (List.insertionSort disbRowLe df_disb).enum.map
    (fun p => ⟨p.1, p.2.disbursement_date, p.2.amount, 0⟩)

/-- The amortization engine: returns the schedule (one row per period) and the
final tranche states. -/
def separate_disbursements_amortization (df_disb : List DisbRow)
    (df_payments : List PayRow) (df_rate_schedule : List RateRow)
    (default_annual_rate monthly_emi : ℚ) (start_payment_date : Date)
    (max_months simple_years : Nat) : List Row × List Tranche :=
  runAux ⟨df_rate_schedule, default_annual_rate, monthly_emi, simple_years⟩
    (List.insertionSort payRowLe df_payments)
    (periodDates start_payment_date max_months) 1
    (buildTranches df_disb)

/-! ## Target-payment search -/

/-- Success test of one trial run: the source treats an empty schedule as a
failure, and otherwise requires the last row to show both ending balances
below 1e-8 with its period index at most the target. -/
def retiresWithin (out : List Row × List Tranche) (target : Nat) : Prop :=
  match out.1.getLast? with
  | none => False
  | some r => r.ending_total_principal < 1 / 100000000 ∧
      r.ending_total_simple_interest < 1 / 100000000 ∧ r.period ≤ target

instance (out : List Row × List Tranche) (target : Nat) :
    Decidable (retiresWithin out target) := by
  unfold retiresWithin
  exact match out.1.getLast? with
  | none => inferInstanceAs (Decidable False)
  | some _ => inferInstanceAs (Decidable (_ ∧ _ ∧ _))

/-- The integer binary search loop of the source: while left ≤ right, test the
midpoint; on success record it as best and search lower, on failure search
higher; return the best recorded value. -/
def emiSearch (p : Int → Bool) (left right best : Int) : Int :=
  if left ≤ right then
    let mid := (left + right) / 2
    if p mid then emiSearch p left (mid - 1) mid
    else emiSearch p (mid + 1) right best
  else best
termination_by (right + 1 - left).toNat
decreasing_by
  all_goals
    have h1 : left ≤ (left + right) / 2 := by omega
    have h2 : (left + right) / 2 ≤ right := by omega
    omega

/-- The midpoints the binary search tests, in the order it tests them (an
observer of `emiSearch` used to state which trial values were run). -/
def emiSearchTested (p : Int → Bool) (left right : Int) : List Int :=
  if left ≤ right then
    let mid := (left + right) / 2
    if p mid then mid :: emiSearchTested p left (mid - 1)
    else mid :: emiSearchTested p (mid + 1) right
  else []
termination_by (right + 1 - left).toNat
decreasing_by
  all_goals
    have h1 : left ≤ (left + right) / 2 := by omega
    have h2 : (left + right) / 2 ≤ right := by omega
    omega

/-- Trial predicate of the search: run the full engine with the trial EMI and
test whether the loan is retired within the target number of months. -/
def emiTrialOk (df_disb : List DisbRow) (df_payments : List PayRow)
    (df_rate_schedule : List RateRow) (default_annual_rate : ℚ)
    (start_payment_date : Date) (max_months simple_years target_months : Nat)
    (m : Int) : Bool :=
  decide (retiresWithin
    (separate_disbursements_amortization df_disb df_payments df_rate_schedule
      default_annual_rate (m : ℚ) start_payment_date max_months simple_years)
    target_months)

/-- Binary search from 0 to 300000 for the smallest EMI that retires the loan
within the target months. -/
def find_required_emi_for_target_months (df_disb : List DisbRow)
    (df_payments : List PayRow) (df_rate_schedule : List RateRow)
    (default_annual_rate : ℚ) (start_payment_date : Date)
    (max_months simple_years target_months : Nat) : Int :=
  emiSearch (emiTrialOk df_disb df_payments df_rate_schedule default_annual_rate
      start_payment_date max_months simple_years target_months)
    0 300000 300000

/-! ## Lemmas about the rate resolver -/

theorem mem_of_getLast_some {α : Type} : ∀ {l : List α} {y : α}, l.getLast? = some y → y ∈ l
  | [], _, h => by simp at h
  | [a], y, h => by
      simp only [List.getLast?_singleton, Option.some.injEq] at h
      simp [h]
  | a :: b :: t, y, h => by
      rw [List.getLast?_cons_cons] at h
      exact List.mem_cons_of_mem a (mem_of_getLast_some h)

theorem pairwise_getLast_max {α : Type} {R : α → α → Prop} :
    ∀ {l : List α}, l.Pairwise R → ∀ {x : α}, x ∈ l → ∀ {y : α},
      l.getLast? = some y → x = y ∨ R x y := by
  intro l
  induction l with
  | nil => intro _ x hx; simp at hx
  | cons a t ih =>
    intro hp x hx y hy
    rcases List.pairwise_cons.mp hp with ⟨ha, ht⟩
    cases t with
    | nil =>
      simp only [List.getLast?_singleton, Option.some.injEq] at hy
      simp only [List.mem_singleton] at hx
      exact Or.inl (hy ▸ hx)
    | cons b t2 =>
      rw [List.getLast?_cons_cons] at hy
      rcases List.mem_cons.mp hx with rfl | hx2
      · exact Or.inr (ha y (mem_of_getLast_some hy))
      · exact ih ht hx2 hy

/-- The resolver returns either the default rate or the rate of some schedule
row. -/
theorem get_annual_rate_mem (date : Date) (sched : List RateRow) (dr : ℚ) :
    get_annual_rate_for_date date sched dr = dr ∨
      ∃ r ∈ sched, get_annual_rate_for_date date sched dr = r.annual_rate := by
  unfold get_annual_rate_for_date
  split
  · exact Or.inl rfl
  · cases hlast : (List.filter (fun r => decide (r.effective_date ≤ date))
        (List.insertionSort rateRowLe sched)).getLast? with
    | none => simp [hlast]
    | some y =>
      right
      refine ⟨y, ?_, by simp [hlast]⟩
      have hy := mem_of_getLast_some hlast
      have hy2 := List.mem_of_mem_filter hy
      exact (List.perm_insertionSort rateRowLe sched).subset hy2

theorem get_annual_rate_nonneg (date : Date) (sched : List RateRow) (dr : ℚ)
    (hs : ∀ r ∈ sched, 0 ≤ r.annual_rate) (hd : 0 ≤ dr) :
    0 ≤ get_annual_rate_for_date date sched dr := by
  rcases get_annual_rate_mem date sched dr with h | ⟨r, hr, h⟩
  · rw [h]; exact hd
  · rw [h]; exact hs r hr

theorem Date.le_refl (a : Date) : a ≤ a := by
  rw [Date.le_def]; omega

/-- C7.  Rate resolver selection and fallback: for every date, schedule, and
default rate, the resolver returns the rate of a schedule entry attaining the
latest effective date among entries on or before the date, and returns the
default rate when the schedule is empty or every entry is strictly later than
the date. -/
theorem claim_C7_rate_resolver_selection (date : Date) (sched : List RateRow) (dr : ℚ) :
    (sched = [] → get_annual_rate_for_date date sched dr = dr)
    ∧ ((∀ e ∈ sched, ¬ e.effective_date ≤ date) →
        get_annual_rate_for_date date sched dr = dr)
    ∧ ((∃ e ∈ sched, e.effective_date ≤ date) →
        ∃ e ∈ sched, e.effective_date ≤ date
          ∧ get_annual_rate_for_date date sched dr = e.annual_rate
          ∧ ∀ f ∈ sched, f.effective_date ≤ date →
              f.effective_date ≤ e.effective_date) := by
  refine ⟨fun hs => by simp [get_annual_rate_for_date, hs], ?_, ?_⟩
  · intro hall
    unfold get_annual_rate_for_date
    split
    · rfl
    · have hnil : List.filter (fun r => decide (r.effective_date ≤ date))
          (List.insertionSort rateRowLe sched) = [] := by
        rw [List.filter_eq_nil]
        intro a ha
        simp only [decide_eq_true_eq]
        exact hall a ((List.perm_insertionSort rateRowLe sched).subset ha)
      simp [hnil]
  · rintro ⟨e0, he0, he0le⟩
    have hne : sched ≠ [] := by rintro rfl; simp at he0
    have hperm := List.perm_insertionSort rateRowLe sched
    have hsorted : List.Pairwise rateRowLe (List.insertionSort rateRowLe sched) :=
      List.sorted_insertionSort rateRowLe sched
    have he0f : e0 ∈ List.filter (fun r => decide (r.effective_date ≤ date))
        (List.insertionSort rateRowLe sched) :=
      List.mem_filter.mpr ⟨hperm.mem_iff.mpr he0, by simpa⟩
    unfold get_annual_rate_for_date
    rw [if_neg hne]
    cases hlast : (List.filter (fun r => decide (r.effective_date ≤ date))
        (List.insertionSort rateRowLe sched)).getLast? with
    | none =>
      rw [List.getLast?_eq_none] at hlast
      rw [hlast] at he0f
      simp at he0f
    | some y =>
      have hyf := mem_of_getLast_some hlast
      have hys : y ∈ List.insertionSort rateRowLe sched := List.mem_of_mem_filter hyf
      have hyle : y.effective_date ≤ date := by
        have := (List.mem_filter.mp hyf).2
        simpa using this
      refine ⟨y, hperm.subset hys, hyle, by simp [hlast], ?_⟩
      intro f hf hfle
      have hff : f ∈ List.filter (fun r => decide (r.effective_date ≤ date))
          (List.insertionSort rateRowLe sched) :=
        List.mem_filter.mpr ⟨hperm.mem_iff.mpr hf, by simpa⟩
      rcases pairwise_getLast_max (hsorted.filter _) hff hlast with rfl | hR
      · exact Date.le_refl _
      · exact hR

/-! ## Lemmas about the resolver's effect on its schedule argument -/

theorem to_datetime_idem (c : DateCell) : to_datetime (to_datetime c) = to_datetime c := by
  cases c <;> rfl

/-- C9 (counterexample).  The claim says the schedule passed to the resolver is
left unchanged by every call.  On a schedule holding a raw (string) date the
source's in-place to_datetime column assignment changes the caller's frame, so
the claim fails at this input. -/
theorem claim_C9_counterexample :
    (get_annual_rate_for_date_frame ⟨2025, 6, 1⟩
        [⟨DateCell.raw ⟨2025, 1, 1⟩, 1⟩] 1).2
      ≠ [⟨DateCell.raw ⟨2025, 1, 1⟩, 1⟩] := by
  decide

/-- C9 (amended).  The resolver's value depends only on its arguments and
re-running it changes nothing further, but the call mutates the schedule passed
in: a nonempty schedule is overwritten with its to_datetime conversion; a
schedule whose dates are already datetime is left value-unchanged. -/
theorem claim_C9_rate_resolver_purity_amended (date : Date)
    (sched : List RateRowCell) (dr : ℚ) :
    ((get_annual_rate_for_date_frame date sched dr).2 =
      if sched = [] then sched
      else sched.map (fun r => { r with effective_date := to_datetime r.effective_date }))
    ∧ ((∀ r ∈ sched, to_datetime r.effective_date = r.effective_date) →
        (get_annual_rate_for_date_frame date sched dr).2 = sched)
    ∧ (get_annual_rate_for_date_frame date
        ((get_annual_rate_for_date_frame date sched dr).2) dr =
       ((get_annual_rate_for_date_frame date sched dr).1,
        (get_annual_rate_for_date_frame date sched dr).2)) := by
  by_cases hs : sched = []
  · subst hs
    exact ⟨by simp [get_annual_rate_for_date_frame],
      fun _ => by simp [get_annual_rate_for_date_frame],
      by simp [get_annual_rate_for_date_frame]⟩
  · have h2 : (get_annual_rate_for_date_frame date sched dr).2 =
        sched.map (fun r => { r with effective_date := to_datetime r.effective_date }) := by
      unfold get_annual_rate_for_date_frame
      rw [if_neg hs]
    have hmapne : sched.map
        (fun r => { r with effective_date := to_datetime r.effective_date }) ≠ [] := by
      simpa using hs
    refine ⟨by rw [h2, if_neg hs], ?_, ?_⟩
    · intro hall
      rw [h2]
      have hcong : ∀ r ∈ sched,
          ({ r with effective_date := to_datetime r.effective_date } : RateRowCell) = id r := by
        intro r hr
        have h := hall r hr
        cases r
        simp only [id_eq]
        simp only at h
        rw [h]
      rw [List.map_congr_left hcong, List.map_id]
    · have hconv : (sched.map
          (fun r => { r with effective_date := to_datetime r.effective_date })).map
          (fun r => { r with effective_date := to_datetime r.effective_date }) =
          sched.map (fun r => { r with effective_date := to_datetime r.effective_date }) := by
        rw [List.map_map]
        apply List.map_congr_left
        intro r hr
        cases r
        simp [to_datetime_idem]
      rw [h2]
      unfold get_annual_rate_for_date_frame
      rw [if_neg hs, if_neg hmapne, hconv]

/-- C9 (witness).  At a schedule whose dates are already datetime the amended
theorem applies and the schedule survives the call unchanged. -/
theorem claim_C9_witness :
    (∀ r ∈ [(⟨DateCell.dt ⟨2024, 1, 1⟩, 1⟩ : RateRowCell)],
        to_datetime r.effective_date = r.effective_date)
    ∧ (get_annual_rate_for_date_frame ⟨2025, 1, 1⟩
        [⟨DateCell.dt ⟨2024, 1, 1⟩, 1⟩] 0).2 = [⟨DateCell.dt ⟨2024, 1, 1⟩, 1⟩] :=
  ⟨by decide,
   (claim_C9_rate_resolver_purity_amended ⟨2025, 1, 1⟩
      [⟨DateCell.dt ⟨2024, 1, 1⟩, 1⟩] 0).2.1 (by decide)⟩

/-! ## Arithmetic facts about the waterfall allocations -/

/-- Positive part of a rational, used to rewrite sumPos as a sum over the
whole list. -/
def ratPos (x : ℚ) : ℚ := if 0 < x then x else 0

theorem sumPos_eq_sum_ratPos (xs : List ℚ) : sumPos xs = (xs.map ratPos).sum := by
  induction xs with
  | nil => rfl
  | cons a t ih =>
    unfold sumPos at *
    rw [List.filter_cons, List.map_cons, List.sum_cons]
    by_cases h : 0 < a
    · simp [h, ih, ratPos]
    · simp [h, ih, ratPos]

theorem sum_map_mul {α : Type} (xs : List α) (f : α → ℚ) (b : ℚ) :
    (xs.map (fun a => b * f a)).sum = b * (xs.map f).sum := by
  induction xs with
  | nil => simp
  | cons a t ih => simp [ih, mul_add]

theorem interestPaidFor_nonneg (T tp x : ℚ) : 0 ≤ interestPaidFor T tp x := by
  unfold interestPaidFor
  split
  · rename_i hg
    split
    · exact le_refl 0
    · rename_i hx
      push_neg at hx
      exact le_min (le_of_lt (mul_pos hg.2 (div_pos hx hg.1))) (le_of_lt hx)
  · exact le_refl 0

theorem interestPaidFor_le (T tp x : ℚ) (hx : 0 ≤ x) : interestPaidFor T tp x ≤ x := by
  unfold interestPaidFor
  split
  · split
    · exact hx
    · exact min_le_right _ _
  · exact hx

/-- The interest allocations of one period sum to at most the pooled payment
(when the latter is non-negative): every tranche gets at most its proportional
share of the payment. -/
theorem interestPaid_sum_le (xs : List ℚ) (tp : ℚ) (hxs : ∀ x ∈ xs, 0 ≤ x) :
    (xs.map (interestPaidFor xs.sum tp)).sum ≤ max tp 0 := by
  by_cases hg : 0 < xs.sum ∧ 0 < tp
  · have hbound : ∀ x ∈ xs, interestPaidFor xs.sum tp x ≤ tp / xs.sum * x := by
      intro x hx
      unfold interestPaidFor
      rw [if_pos hg]
      split
      · exact mul_nonneg (le_of_lt (div_pos hg.2 hg.1)) (hxs x hx)
      · have heq : tp * (x / xs.sum) = tp / xs.sum * x := by ring
        exact le_trans (min_le_left _ _) (le_of_eq heq)
    calc (xs.map (interestPaidFor xs.sum tp)).sum
        ≤ (xs.map (fun x => tp / xs.sum * x)).sum := List.sum_le_sum hbound
      _ = tp / xs.sum * (xs.map (fun x => x)).sum := sum_map_mul xs (fun x => x) _
      _ = tp / xs.sum * xs.sum := by rw [List.map_id']
      _ = tp := div_mul_cancel₀ tp (ne_of_gt hg.1)
      _ ≤ max tp 0 := le_max_left _ _
  · have hz : ∀ x ∈ xs, interestPaidFor xs.sum tp x = 0 := by
      intro x hx
      unfold interestPaidFor
      rw [if_neg hg]
    calc (xs.map (interestPaidFor xs.sum tp)).sum
        = (xs.map (fun _ => (0 : ℚ))).sum := congrArg _ (List.map_congr_left hz)
      _ = 0 := by simp
      _ ≤ max tp 0 := le_max_right _ _

theorem principalPaidFor_nonneg (lo tot : ℚ) (t : Tranche) :
    0 ≤ principalPaidFor lo tot t := by
  unfold principalPaidFor
  split
  · rename_i hg
    exact le_min (le_of_lt (mul_pos hg.1 (div_pos hg.2.2 hg.2.1))) (le_of_lt hg.2.2)
  · exact le_refl 0

theorem principalPaidFor_le (lo tot : ℚ) (t : Tranche)
    (h : 0 ≤ t.principal_outstanding) :
    principalPaidFor lo tot t ≤ t.principal_outstanding := by
  unfold principalPaidFor
  split
  · exact min_le_right _ _
  · exact h

/-- The principal allocations of one period sum to at most the payment left
after the interest pass: the guard total is the sum of positive outstanding
principals, and each tranche gets at most its proportional share. -/
theorem principalPaid_sum_le (ts : List Tranche) (lo : ℚ) :
    (ts.map (principalPaidFor lo
        (sumPos (ts.map (fun t => t.principal_outstanding))))).sum ≤ max lo 0 := by
  set tot := sumPos (ts.map (fun t => t.principal_outstanding)) with htot
  by_cases hg : 0 < lo ∧ 0 < tot
  · have hbound : ∀ t ∈ ts, principalPaidFor lo tot t ≤
        lo / tot * ratPos t.principal_outstanding := by
      intro t ht
      unfold principalPaidFor
      split
      · rename_i hgt
        have hpos : ratPos t.principal_outstanding = t.principal_outstanding := by
          unfold ratPos; rw [if_pos hgt.2.2]
        rw [hpos]
        have heq : lo * (t.principal_outstanding / tot) = lo / tot * t.principal_outstanding := by
          ring
        exact le_trans (min_le_left _ _) (le_of_eq heq)
      · rename_i hgt
        have hple : ¬ 0 < t.principal_outstanding := by tauto
        have hpos : ratPos t.principal_outstanding = 0 := by
          unfold ratPos; rw [if_neg hple]
        rw [hpos, mul_zero]
    calc (ts.map (principalPaidFor lo tot)).sum
        ≤ (ts.map (fun t => lo / tot * ratPos t.principal_outstanding)).sum :=
          List.sum_le_sum hbound
      _ = lo / tot * (ts.map (fun t => ratPos t.principal_outstanding)).sum :=
          sum_map_mul ts _ _
      _ = lo / tot * tot := by
          rw [htot, sumPos_eq_sum_ratPos, List.map_map]
          rfl
      _ = lo := div_mul_cancel₀ lo (ne_of_gt hg.2)
      _ ≤ max lo 0 := le_max_left _ _
  · have hz : ∀ t ∈ ts, principalPaidFor lo tot t = 0 := by
      intro t ht
      unfold principalPaidFor
      split
      · rename_i hgt; exact absurd ⟨hgt.1, hgt.2.1⟩ hg
      · rfl
    calc (ts.map (principalPaidFor lo tot)).sum
        = (ts.map (fun _ => (0 : ℚ))).sum := congrArg _ (List.map_congr_left hz)
      _ = 0 := by simp
      _ ≤ max lo 0 := le_max_right _ _

/-! ## Validity invariants of the engine state -/

/-- Non-negative principal and accrued simple interest on every tranche. -/
def validTranches (ts : List Tranche) : Prop :=
  ∀ t ∈ ts, 0 ≤ t.principal_outstanding ∧ 0 ≤ t.accrued_simple_interest

/-- The input-validity hypotheses the data model imposes: non-negative
amounts, rates, default rate and base payment. -/
def ValidInputs (df_disb : List DisbRow) (df_payments : List PayRow)
    (df_rate_schedule : List RateRow) (default_annual_rate monthly_emi : ℚ) : Prop :=
  (∀ r ∈ df_disb, 0 ≤ r.amount) ∧ (∀ p ∈ df_payments, 0 ≤ p.amount) ∧
    (∀ s ∈ df_rate_schedule, 0 ≤ s.annual_rate) ∧
    0 ≤ default_annual_rate ∧ 0 ≤ monthly_emi

instance (df_disb : List DisbRow) (df_payments : List PayRow)
    (df_rate_schedule : List RateRow) (dr emi : ℚ) :
    Decidable (ValidInputs df_disb df_payments df_rate_schedule dr emi) := by
  unfold ValidInputs; exact inferInstance

/-- The same hypotheses, phrased on the engine parameter record and a payment
list. -/
def validParams (P : Params) (pays : List PayRow) : Prop :=
  (∀ r ∈ P.sched, 0 ≤ r.annual_rate) ∧ 0 ≤ P.defaultRate ∧ 0 ≤ P.emi ∧
    ∀ p ∈ pays, 0 ≤ p.amount

theorem lumpsumOn_nonneg (pays : List PayRow) (d : Date)
    (h : ∀ p ∈ pays, 0 ≤ p.amount) : 0 ≤ lumpsumOn pays d := by
  unfold lumpsumOn
  apply List.sum_nonneg
  intro x hx
  simp only [List.mem_map] at hx
  obtain ⟨p, hp, rfl⟩ := hx
  exact h p (List.mem_of_mem_filter hp)

theorem interestFor_nonneg (P : Params) (pays : List PayRow) (date : Date)
    (t : Tranche) (hv : validParams P pays) (hp : 0 ≤ t.principal_outstanding) :
    0 ≤ interestFor P date t := by
  unfold interestFor
  split
  · exact le_refl 0
  · exact mul_nonneg hp (div_nonneg
      (get_annual_rate_nonneg date P.sched P.defaultRate hv.1 hv.2.1) (by norm_num))

/-- Per-tranche bounds of the two allocation passes at a valid state: each
interest allocation lies between 0 and the tranche's interest due, each
principal allocation between 0 and the tranche's outstanding principal. -/
theorem tranchePaid_bounds (P : Params) (pays : List PayRow) (date : Date)
    (ts : List Tranche) (t : Tranche) (hv : validParams P pays)
    (hvt : validTranches ts) (ht : t ∈ ts) :
    0 ≤ tranchePaidInterest P pays date ts t
    ∧ tranchePaidInterest P pays date ts t ≤ interestFor P date t
    ∧ 0 ≤ tranchePaidPrincipal P pays date ts t
    ∧ tranchePaidPrincipal P pays date ts t ≤ t.principal_outstanding :=
  ⟨interestPaidFor_nonneg _ _ _,
   interestPaidFor_le _ _ _ (interestFor_nonneg P pays date t hv (hvt t ht).1),
   principalPaidFor_nonneg _ _ _,
   principalPaidFor_le _ _ _ (hvt t ht).1⟩

/-- Conservation at one period: the interest payments plus the principal
payments consume at most the pooled payment. -/
theorem step_sums_le (P : Params) (pays : List PayRow) (date : Date)
    (ts : List Tranche) (hv : validParams P pays) (hvt : validTranches ts) :
    (ts.map (tranchePaidInterest P pays date ts)).sum
      + (ts.map (tranchePaidPrincipal P pays date ts)).sum
      ≤ P.emi + lumpsumOn pays date := by
  have htp : 0 ≤ P.emi + lumpsumOn pays date :=
    add_nonneg hv.2.2.1 (lumpsumOn_nonneg pays date hv.2.2.2)
  have hdue : ∀ x ∈ ts.map (interestFor P date), 0 ≤ x := by
    intro x hx
    simp only [List.mem_map] at hx
    obtain ⟨t, ht, rfl⟩ := hx
    exact interestFor_nonneg P pays date t hv (hvt t ht).1
  have hI : (ts.map (tranchePaidInterest P pays date ts)).sum ≤
      P.emi + lumpsumOn pays date := by
    have hrw : ts.map (tranchePaidInterest P pays date ts) =
        (ts.map (interestFor P date)).map
          (interestPaidFor ((ts.map (interestFor P date)).sum)
            (P.emi + lumpsumOn pays date)) := by
      rw [List.map_map]
      rfl
    rw [hrw]
    have := interestPaid_sum_le (ts.map (interestFor P date))
      (P.emi + lumpsumOn pays date) hdue
    rwa [max_eq_left htp] at this
  have hInn : 0 ≤ (ts.map (tranchePaidInterest P pays date ts)).sum := by
    apply List.sum_nonneg
    intro x hx
    simp only [List.mem_map] at hx
    obtain ⟨t, ht, rfl⟩ := hx
    exact interestPaidFor_nonneg _ _ _
  have hlo : 0 ≤ P.emi + lumpsumOn pays date
      - (ts.map (tranchePaidInterest P pays date ts)).sum := by linarith
  have hP : (ts.map (tranchePaidPrincipal P pays date ts)).sum ≤
      P.emi + lumpsumOn pays date
        - (ts.map (tranchePaidInterest P pays date ts)).sum := by
    have := principalPaid_sum_le ts
      (P.emi + lumpsumOn pays date - (ts.map (tranchePaidInterest P pays date ts)).sum)
    rwa [max_eq_left hlo] at this
  linarith

/-- Closed form of the per-tranche update, by phase and by whether the
phase-transition capitalization fires. -/
theorem applyPayment_eq (sy : Nat) (date : Date) (due ipaid ppaid : ℚ) (t : Tranche) :
    applyPayment sy date due ipaid ppaid t =
      if date < simplePhaseEnd sy t then
        Tranche.mk t.id t.disbursement_date (t.principal_outstanding - ppaid)
          (t.accrued_simple_interest + (due - ipaid))
      else if 0 < t.accrued_simple_interest then
        Tranche.mk t.id t.disbursement_date
          (t.principal_outstanding + (due - ipaid) - ppaid + t.accrued_simple_interest) 0
      else
        Tranche.mk t.id t.disbursement_date
          (t.principal_outstanding + (due - ipaid) - ppaid) t.accrued_simple_interest := by
  by_cases hsim : date < simplePhaseEnd sy t
  · simp [applyPayment, capitalize, hsim]
  · by_cases hcap : 0 < t.accrued_simple_interest
    · simp [applyPayment, capitalize, hsim, hcap]
    · simp [applyPayment, capitalize, hsim, hcap]

/-- The per-tranche update keeps principal and accrued simple interest
non-negative, and leaves the accrued simple interest of a tranche past its
simple window exactly zero. -/
theorem applyPayment_valid (sy : Nat) (date : Date) (due ipaid ppaid : ℚ)
    (t : Tranche) (hp : 0 ≤ t.principal_outstanding)
    (ha : 0 ≤ t.accrued_simple_interest) (hip : ipaid ≤ due)
    (hppp : ppaid ≤ t.principal_outstanding) :
    0 ≤ (applyPayment sy date due ipaid ppaid t).principal_outstanding
    ∧ 0 ≤ (applyPayment sy date due ipaid ppaid t).accrued_simple_interest
    ∧ (¬ date < simplePhaseEnd sy t →
        (applyPayment sy date due ipaid ppaid t).accrued_simple_interest = 0) := by
  rw [applyPayment_eq]
  by_cases hsim : date < simplePhaseEnd sy t
  · rw [if_pos hsim]
    refine ⟨?_, ?_, ?_⟩
    · dsimp only
      linarith
    · dsimp only
      linarith
    · intro hns
      exact absurd hsim hns
  · rw [if_neg hsim]
    by_cases hcap : 0 < t.accrued_simple_interest
    · rw [if_pos hcap]
      refine ⟨?_, ?_, ?_⟩
      · dsimp only
        clear hsim
        linarith
      · exact le_refl 0
      · intro h2
        rfl
    · rw [if_neg hcap]
      push_neg at hcap
      refine ⟨?_, ?_, ?_⟩
      · dsimp only
        clear hsim
        linarith
      · exact ha
      · intro h2
        exact le_antisymm hcap ha

/-- The per-tranche update never changes a tranche's id or disbursement
date. -/
theorem applyPayment_meta (sy : Nat) (date : Date) (due ipaid ppaid : ℚ)
    (t : Tranche) :
    (applyPayment sy date due ipaid ppaid t).id = t.id
    ∧ (applyPayment sy date due ipaid ppaid t).disbursement_date =
        t.disbursement_date := by
  rw [applyPayment_eq]
  by_cases hsim : date < simplePhaseEnd sy t
  · rw [if_pos hsim]; exact ⟨rfl, rfl⟩
  · rw [if_neg hsim]
    by_cases hcap : 0 < t.accrued_simple_interest
    · rw [if_pos hcap]; exact ⟨rfl, rfl⟩
    · rw [if_neg hcap]; exact ⟨rfl, rfl⟩

/-! ## The engine's state evolution -/

/-- State transformer of one period (the emitted row does not feed back into
the state, so the period index is irrelevant to it). -/
def stepTranches (P : Params) (pays : List PayRow) (ts : List Tranche)
    (date : Date) : List Tranche :=
  (periodStep P pays 0 date ts).2

/-- Tranche states after consuming a list of period dates. -/
def statesFold (P : Params) (pays : List PayRow) (ds : List Date)
    (ts : List Tranche) : List Tranche :=
  ds.foldl (stepTranches P pays) ts

theorem periodStep_snd (P : Params) (pays : List PayRow) (idx : Nat)
    (date : Date) (ts : List Tranche) :
    (periodStep P pays idx date ts).2 = stepTranches P pays ts date := rfl

theorem statesFold_nil (P : Params) (pays : List PayRow) (ts : List Tranche) :
    statesFold P pays [] ts = ts := rfl

theorem statesFold_cons (P : Params) (pays : List PayRow) (d : Date)
    (ds : List Date) (ts : List Tranche) :
    statesFold P pays (d :: ds) ts = statesFold P pays ds (stepTranches P pays ts d) := rfl

theorem statesFold_append (P : Params) (pays : List PayRow) (ds1 ds2 : List Date)
    (ts : List Tranche) :
    statesFold P pays (ds1 ++ ds2) ts = statesFold P pays ds2 (statesFold P pays ds1 ts) :=
  List.foldl_append _ _ _ _

/-- One period preserves the validity invariant. -/
theorem stepTranches_valid (P : Params) (pays : List PayRow) (date : Date)
    (ts : List Tranche) (hv : validParams P pays) (hvt : validTranches ts) :
    validTranches (stepTranches P pays ts date) := by
  intro t' ht'
  unfold stepTranches periodStep at ht'
  simp only [List.mem_map] at ht'
  obtain ⟨t, ht, rfl⟩ := ht'
  obtain ⟨hi0, hile, hp0, hple⟩ := tranchePaid_bounds P pays date ts t hv hvt ht
  obtain ⟨h1, h2, -⟩ := applyPayment_valid P.simpleYears date _ _ _ t
    (hvt t ht).1 (hvt t ht).2 hile hple
  exact ⟨h1, h2⟩

theorem statesFold_valid (P : Params) (pays : List PayRow) (ds : List Date)
    (ts : List Tranche) (hv : validParams P pays) (hvt : validTranches ts) :
    validTranches (statesFold P pays ds ts) := by
  induction ds generalizing ts with
  | nil => exact hvt
  | cons d ds ih =>
    rw [statesFold_cons]
    exact ih _ (stepTranches_valid P pays d ts hv hvt)

/-- One period maps the tranche list pointwise, so the j-th entry of the new
state is the update of the j-th entry of the old state. -/
theorem stepTranches_get? (P : Params) (pays : List PayRow) (date : Date)
    (ts : List Tranche) (j : Nat) :
    (stepTranches P pays ts date).get? j = ((ts.get? j).map (fun t =>
      applyPayment P.simpleYears date (interestFor P date t)
        (tranchePaidInterest P pays date ts t)
        (tranchePaidPrincipal P pays date ts t) t)) := by
  unfold stepTranches periodStep
  simp only [List.get?_map]

/-- Disbursement dates are invariant along the whole run. -/
theorem statesFold_meta (P : Params) (pays : List PayRow) (ds : List Date)
    (ts : List Tranche) (j : Nat) :
    ((statesFold P pays ds ts).get? j).map (fun t => t.disbursement_date) =
      (ts.get? j).map (fun t => t.disbursement_date) := by
  induction ds generalizing ts with
  | nil => rfl
  | cons d ds ih =>
    rw [statesFold_cons, ih, stepTranches_get?]
    cases ts.get? j with
    | none => rfl
    | some t => simp [(applyPayment_meta P.simpleYears d _ _ _ t).2]

theorem buildTranches_valid (df_disb : List DisbRow)
    (h : ∀ r ∈ df_disb, 0 ≤ r.amount) : validTranches (buildTranches df_disb) := by
  intro t ht
  unfold buildTranches at ht
  simp only [List.mem_map] at ht
  obtain ⟨⟨i, r⟩, hr, rfl⟩ := ht
  refine ⟨h r ?_, le_refl 0⟩
  rw [List.enum_eq_zip_range] at hr
  have hmem : r ∈ List.insertionSort disbRowLe df_disb := (List.of_mem_zip hr).2
  exact (List.perm_insertionSort disbRowLe df_disb).subset hmem

/-! ## Structure of the period loop -/

theorem runAux_nil (P : Params) (pays : List PayRow) (idx : Nat) (ts : List Tranche) :
    runAux P pays [] idx ts = ([], ts) := rfl

theorem runAux_cons_stop (P : Params) (pays : List PayRow) (d : Date) (ds : List Date)
    (idx : Nat) (ts : List Tranche) (h : stopCond (periodStep P pays idx d ts).1) :
    runAux P pays (d :: ds) idx ts =
      ([(periodStep P pays idx d ts).1], (periodStep P pays idx d ts).2) := by
  simp [runAux, h]

theorem runAux_cons_go (P : Params) (pays : List PayRow) (d : Date) (ds : List Date)
    (idx : Nat) (ts : List Tranche) (h : ¬ stopCond (periodStep P pays idx d ts).1) :
    runAux P pays (d :: ds) idx ts =
      ((periodStep P pays idx d ts).1 ::
         (runAux P pays ds (idx + 1) (periodStep P pays idx d ts).2).1,
       (runAux P pays ds (idx + 1) (periodStep P pays idx d ts).2).2) := by
  simp [runAux, h]

theorem runAux_length_le (P : Params) (pays : List PayRow) :
    ∀ (ds : List Date) (idx : Nat) (ts : List Tranche),
      (runAux P pays ds idx ts).1.length ≤ ds.length := by
  intro ds
  induction ds with
  | nil => intro idx ts; simp [runAux_nil]
  | cons d ds ih =>
    intro idx ts
    by_cases hstop : stopCond (periodStep P pays idx d ts).1
    · rw [runAux_cons_stop P pays d ds idx ts hstop]
      simp
    · rw [runAux_cons_go P pays d ds idx ts hstop]
      simpa using ih (idx + 1) (periodStep P pays idx d ts).2

/-- Every emitted row is the row of the period step run at the matching date
on the state obtained by folding the earlier dates. -/
theorem runAux_get? (P : Params) (pays : List PayRow) :
    ∀ (ds : List Date) (idx : Nat) (ts : List Tranche) (k : Nat) (row : Row),
      (runAux P pays ds idx ts).1.get? k = some row →
      ∃ d, ds.get? k = some d ∧
        row = (periodStep P pays (idx + k) d (statesFold P pays (ds.take k) ts)).1 := by
  intro ds
  induction ds with
  | nil => intro idx ts k row h; simp [runAux_nil] at h
  | cons d ds ih =>
    intro idx ts k row h
    by_cases hstop : stopCond (periodStep P pays idx d ts).1
    · rw [runAux_cons_stop P pays d ds idx ts hstop] at h
      cases k with
      | zero =>
        simp only [List.get?_cons_zero, Option.some.injEq] at h
        exact ⟨d, rfl, by rw [← h]; rfl⟩
      | succ k2 => simp at h
    · rw [runAux_cons_go P pays d ds idx ts hstop] at h
      cases k with
      | zero =>
        simp only [List.get?_cons_zero, Option.some.injEq] at h
        exact ⟨d, rfl, by rw [← h]; rfl⟩
      | succ k2 =>
        simp only [List.get?_cons_succ] at h
        obtain ⟨d2, hd2, hrow⟩ := ih (idx + 1) (periodStep P pays idx d ts).2 k2 row h
        refine ⟨d2, by simpa using hd2, ?_⟩
        rw [hrow]
        have hidx : idx + 1 + k2 = idx + (k2 + 1) := by omega
        rw [hidx]
        rfl

/-- The final tranche state of the loop is the fold of the consumed dates. -/
theorem runAux_final (P : Params) (pays : List PayRow) :
    ∀ (ds : List Date) (idx : Nat) (ts : List Tranche),
      (runAux P pays ds idx ts).2 =
        statesFold P pays (ds.take (runAux P pays ds idx ts).1.length) ts := by
  intro ds
  induction ds with
  | nil => intro idx ts; simp [runAux_nil, statesFold_nil]
  | cons d ds ih =>
    intro idx ts
    by_cases hstop : stopCond (periodStep P pays idx d ts).1
    · rw [runAux_cons_stop P pays d ds idx ts hstop]
      simp only [List.length_singleton, List.take_succ_cons, List.take_zero]
      rfl
    · rw [runAux_cons_go P pays d ds idx ts hstop]
      simp only [List.length_cons, List.take_succ_cons]
      rw [statesFold_cons]
      exact ih (idx + 1) (periodStep P pays idx d ts).2

/-- The loop ends before consuming every date exactly when some emitted row
other than the one of the final date passes the stop test. -/
theorem runAux_early_iff (P : Params) (pays : List PayRow) :
    ∀ (ds : List Date) (idx : Nat) (ts : List Tranche),
      ((runAux P pays ds idx ts).1.length < ds.length ↔
        ∃ k row, (runAux P pays ds idx ts).1.get? k = some row ∧
          k + 1 < ds.length ∧ stopCond row) := by
  intro ds
  induction ds with
  | nil =>
    intro idx ts
    simp [runAux_nil]
  | cons d ds ih =>
    intro idx ts
    by_cases hstop : stopCond (periodStep P pays idx d ts).1
    · rw [runAux_cons_stop P pays d ds idx ts hstop]
      constructor
      · intro hlt
        refine ⟨0, (periodStep P pays idx d ts).1, rfl, ?_, hstop⟩
        simpa using hlt
      · rintro ⟨k, row, hget, hk1, hrow⟩
        cases k with
        | zero => simpa using hk1
        | succ k2 => simp at hget
    · rw [runAux_cons_go P pays d ds idx ts hstop]
      simp only [List.length_cons]
      constructor
      · intro hlt
        have hlt2 : (runAux P pays ds (idx + 1) (periodStep P pays idx d ts).2).1.length
            < ds.length := by omega
        obtain ⟨k, row, hget, hk1, hrow⟩ :=
          (ih (idx + 1) (periodStep P pays idx d ts).2).mp hlt2
        exact ⟨k + 1, row, by simpa using hget, by omega, hrow⟩
      · rintro ⟨k, row, hget, hk1, hrow⟩
        cases k with
        | zero =>
          simp only [List.get?_cons_zero, Option.some.injEq] at hget
          exact absurd (hget ▸ hrow) hstop
        | succ k2 =>
          simp only [List.get?_cons_succ] at hget
          have := (ih (idx + 1) (periodStep P pays idx d ts).2).mpr
            ⟨k2, row, hget, by omega, hrow⟩
          omega

/-- If the loop is given at least one date it emits at least one row. -/
theorem runAux_ne_nil (P : Params) (pays : List PayRow) (d : Date) (ds : List Date)
    (idx : Nat) (ts : List Tranche) :
    (runAux P pays (d :: ds) idx ts).1 ≠ [] := by
  by_cases hstop : stopCond (periodStep P pays idx d ts).1
  · rw [runAux_cons_stop P pays d ds idx ts hstop]
    simp
  · rw [runAux_cons_go P pays d ds idx ts hstop]
    simp

/-! ## Engine-level state view -/

/-- Tranche states after the first k periods of an engine run.  By
runAux_final the engine's returned final state equals this view taken at the
length of the returned schedule. -/
def engineStates (df_disb : List DisbRow) (df_payments : List PayRow)
    (df_rate_schedule : List RateRow) (default_annual_rate monthly_emi : ℚ)
    (start_payment_date : Date) (max_months simple_years k : Nat) : List Tranche :=
  statesFold ⟨df_rate_schedule, default_annual_rate, monthly_emi, simple_years⟩
    (List.insertionSort payRowLe df_payments)
    ((periodDates start_payment_date max_months).take k)
    (buildTranches df_disb)

theorem validParams_of (df_disb : List DisbRow) (df_payments : List PayRow)
    (df_rate_schedule : List RateRow) (dr emi : ℚ) (sy : Nat)
    (hv : ValidInputs df_disb df_payments df_rate_schedule dr emi) :
    validParams ⟨df_rate_schedule, dr, emi, sy⟩
      (List.insertionSort payRowLe df_payments) := by
  refine ⟨hv.2.2.1, hv.2.2.2.1, hv.2.2.2.2, ?_⟩
  intro p hp
  exact hv.2.1 p ((List.perm_insertionSort payRowLe df_payments).subset hp)

theorem engineStates_valid (df_disb : List DisbRow) (df_payments : List PayRow)
    (df_rate_schedule : List RateRow) (dr emi : ℚ) (start : Date)
    (maxM sy k : Nat) (hv : ValidInputs df_disb df_payments df_rate_schedule dr emi) :
    validTranches (engineStates df_disb df_payments df_rate_schedule dr emi start maxM sy k) :=
  statesFold_valid _ _ _ _
    (validParams_of df_disb df_payments df_rate_schedule dr emi sy hv)
    (buildTranches_valid df_disb hv.1)

theorem engine_eq_runAux (df_disb : List DisbRow) (df_payments : List PayRow)
    (df_rate_schedule : List RateRow) (dr emi : ℚ) (start : Date) (maxM sy : Nat) :
    separate_disbursements_amortization df_disb df_payments df_rate_schedule
        dr emi start maxM sy =
      runAux ⟨df_rate_schedule, dr, emi, sy⟩
        (List.insertionSort payRowLe df_payments)
        (periodDates start maxM) 1 (buildTranches df_disb) := rfl

/-- C3.  Non-negativity invariant: from tranches with non-negative principal
and zero accrued simple interest (and non-negative rates, payments and EMI),
every period's state update keeps every tranche's principal and accrued simple
interest non-negative; each period's per-tranche interest allocation never
exceeds that tranche's interest due and its principal allocation never exceeds
its outstanding principal; and the engine's final state is the state view at
the schedule's length. -/
theorem claim_C3_nonnegativity_invariant (df_disb : List DisbRow)
    (df_payments : List PayRow) (df_rate_schedule : List RateRow)
    (dr emi : ℚ) (start : Date) (maxM sy : Nat)
    (hv : ValidInputs df_disb df_payments df_rate_schedule dr emi) :
    (∀ k, ∀ t ∈ engineStates df_disb df_payments df_rate_schedule dr emi start maxM sy k,
        0 ≤ t.principal_outstanding ∧ 0 ≤ t.accrued_simple_interest)
    ∧ (∀ k d, (periodDates start maxM).get? k = some d →
        ∀ t ∈ engineStates df_disb df_payments df_rate_schedule dr emi start maxM sy k,
          tranchePaidInterest ⟨df_rate_schedule, dr, emi, sy⟩
              (List.insertionSort payRowLe df_payments) d
              (engineStates df_disb df_payments df_rate_schedule dr emi start maxM sy k) t
            ≤ interestFor ⟨df_rate_schedule, dr, emi, sy⟩ d t
          ∧ tranchePaidPrincipal ⟨df_rate_schedule, dr, emi, sy⟩
              (List.insertionSort payRowLe df_payments) d
              (engineStates df_disb df_payments df_rate_schedule dr emi start maxM sy k) t
            ≤ t.principal_outstanding)
    ∧ (separate_disbursements_amortization df_disb df_payments df_rate_schedule
          dr emi start maxM sy).2 =
        engineStates df_disb df_payments df_rate_schedule dr emi start maxM sy
          ((separate_disbursements_amortization df_disb df_payments df_rate_schedule
              dr emi start maxM sy).1.length) := by
  have hvp := validParams_of df_disb df_payments df_rate_schedule dr emi sy hv
  refine ⟨?_, ?_, ?_⟩
  · intro k t ht
    exact engineStates_valid df_disb df_payments df_rate_schedule dr emi start maxM sy k hv t ht
  · intro k d hd t ht
    have hb := tranchePaid_bounds ⟨df_rate_schedule, dr, emi, sy⟩
      (List.insertionSort payRowLe df_payments) d
      (engineStates df_disb df_payments df_rate_schedule dr emi start maxM sy k) t hvp
      (engineStates_valid df_disb df_payments df_rate_schedule dr emi start maxM sy k hv) ht
    exact ⟨hb.2.1, hb.2.2.2⟩
  · rw [engine_eq_runAux]
    exact runAux_final _ _ _ _ _

/-- C3 (witness).  A concrete valid run: one tranche of 100 disbursed
2020-01-01, EMI 50, zero rates, starting 2025-01-01; after the first period
the invariant holds on the single tranche. -/
theorem claim_C3_witness :
    ValidInputs [⟨⟨2020, 1, 1⟩, 100⟩] [] [] 0 50
    ∧ (∀ t ∈ engineStates [⟨⟨2020, 1, 1⟩, 100⟩] [] [] 0 50 ⟨2025, 1, 1⟩ 1 1 1,
        0 ≤ t.principal_outstanding ∧ 0 ≤ t.accrued_simple_interest) :=
  ⟨by decide,
   (claim_C3_nonnegativity_invariant [⟨⟨2020, 1, 1⟩, 100⟩] [] [] 0 50
      ⟨2025, 1, 1⟩ 1 1 (by decide)).1 1⟩

/-- C1.  Conservation of payment: on every emitted period row of a run with
valid inputs, the reported interest paid plus principal paid is at most the
base payment plus that period's lumpsum, and each reported aggregate equals
the sum of the matching per-tranche allocations of that period. -/
theorem claim_C1_conservation (df_disb : List DisbRow) (df_payments : List PayRow)
    (df_rate_schedule : List RateRow) (dr emi : ℚ) (start : Date) (maxM sy : Nat)
    (hv : ValidInputs df_disb df_payments df_rate_schedule dr emi) :
    ∀ k row d,
      (separate_disbursements_amortization df_disb df_payments df_rate_schedule
          dr emi start maxM sy).1.get? k = some row →
      (periodDates start maxM).get? k = some d →
      row.interest_paid + row.principal_paid ≤ emi + row.extra_payment
      ∧ row.interest_paid =
          ((engineStates df_disb df_payments df_rate_schedule dr emi start maxM sy k).map
            (tranchePaidInterest ⟨df_rate_schedule, dr, emi, sy⟩
              (List.insertionSort payRowLe df_payments) d
              (engineStates df_disb df_payments df_rate_schedule dr emi start maxM sy k))).sum
      ∧ row.principal_paid =
          ((engineStates df_disb df_payments df_rate_schedule dr emi start maxM sy k).map
            (tranchePaidPrincipal ⟨df_rate_schedule, dr, emi, sy⟩
              (List.insertionSort payRowLe df_payments) d
              (engineStates df_disb df_payments df_rate_schedule dr emi start maxM sy k))).sum := by
  intro k row d hrow hd
  have hvp := validParams_of df_disb df_payments df_rate_schedule dr emi sy hv
  rw [engine_eq_runAux] at hrow
  obtain ⟨d2, hd2, hrw⟩ := runAux_get? _ _ _ _ _ _ _ hrow
  rw [hd] at hd2
  cases hd2
  have hvt := engineStates_valid df_disb df_payments df_rate_schedule dr emi start maxM sy k hv
  have hsum := step_sums_le ⟨df_rate_schedule, dr, emi, sy⟩
    (List.insertionSort payRowLe df_payments) d
    (engineStates df_disb df_payments df_rate_schedule dr emi start maxM sy k) hvp hvt
  subst hrw
  exact ⟨hsum, rfl, rfl⟩

set_option maxHeartbeats 2000000 in
/-- C1 (witness).  The conservation bound instantiated on the first period of
a concrete valid run. -/
theorem claim_C1_witness :
    (separate_disbursements_amortization [⟨⟨2020, 1, 1⟩, 100⟩] [] [] 0 50
        ⟨2025, 1, 1⟩ 1 1).1.get? 0 =
      some ⟨1, ⟨2025, 1, 1⟩, 0, 0, 50, 0, 50, 0⟩
    ∧ (0 : ℚ) + 50 ≤ 50 + 0 := by
  have hrow : (separate_disbursements_amortization [⟨⟨2020, 1, 1⟩, 100⟩] [] [] 0 50
      ⟨2025, 1, 1⟩ 1 1).1.get? 0 = some ⟨1, ⟨2025, 1, 1⟩, 0, 0, 50, 0, 50, 0⟩ := by
    norm_num [separate_disbursements_amortization, runAux, periodStep, buildTranches,
      periodDates, lumpsumOn, sumPos, interestFor, tranchePaidInterest, tranchePaidPrincipal,
      interestPaidFor, principalPaidFor, applyPayment, capitalize, simplePhaseEnd, stopCond,
      get_annual_rate_for_date, Date.addMonths, firstOfMonth, daysInMonth,
      List.insertionSort, List.orderedInsert, List.range_succ, Date.lt_def, Date.le_def]
  have hd : (periodDates ⟨2025, 1, 1⟩ 1).get? 0 = some ⟨2025, 1, 1⟩ := by
    norm_num [periodDates, Date.addMonths, firstOfMonth, daysInMonth, List.range_succ]
  have h := claim_C1_conservation [⟨⟨2020, 1, 1⟩, 100⟩] [] [] 0 50 ⟨2025, 1, 1⟩ 1 1
    (by decide) 0 ⟨1, ⟨2025, 1, 1⟩, 0, 0, 50, 0, 50, 0⟩ ⟨2025, 1, 1⟩ hrow hd
  exact ⟨hrow, by simpa using h.1⟩

theorem take_succ_of_get? {α : Type} (l : List α) (k : Nat) (a : α)
    (h : l.get? k = some a) : l.take (k + 1) = l.take k ++ [a] := by
  rw [List.take_succ, List.get?_eq_getElem?] at *
  rw [h]
  rfl

/-- C2.  Phase-transition exactness: on a valid run, after the state update of
any emitted period whose date is at or past a tranche's
disbursement_date + simple_phase_years, that tranche's accrued-simple-interest
balance is exactly zero; and the phase-transition capitalization moves into
principal exactly the accrued-simple-interest balance held immediately before
it, resetting the balance to zero. -/
theorem claim_C2_phase_transition_exactness (df_disb : List DisbRow)
    (df_payments : List PayRow) (df_rate_schedule : List RateRow)
    (dr emi : ℚ) (start : Date) (maxM sy : Nat)
    (hv : ValidInputs df_disb df_payments df_rate_schedule dr emi) :
    (∀ k d j t0 t,
        k < (separate_disbursements_amortization df_disb df_payments df_rate_schedule
            dr emi start maxM sy).1.length →
        (periodDates start maxM).get? k = some d →
        (buildTranches df_disb).get? j = some t0 →
        ¬ d < simplePhaseEnd sy t0 →
        (engineStates df_disb df_payments df_rate_schedule dr emi start maxM sy (k + 1)).get? j
          = some t →
        t.accrued_simple_interest = 0)
    ∧ (∀ t : Tranche, 0 < t.accrued_simple_interest →
        (capitalize t).principal_outstanding
            = t.principal_outstanding + t.accrued_simple_interest
          ∧ (capitalize t).accrued_simple_interest = 0) := by
  have hvp := validParams_of df_disb df_payments df_rate_schedule dr emi sy hv
  constructor
  · intro k d j t0 t hk hd ht0 hphase ht
    have htake := take_succ_of_get? (periodDates start maxM) k d hd
    have hstep : engineStates df_disb df_payments df_rate_schedule dr emi start maxM sy (k + 1)
        = stepTranches ⟨df_rate_schedule, dr, emi, sy⟩
            (List.insertionSort payRowLe df_payments)
            (engineStates df_disb df_payments df_rate_schedule dr emi start maxM sy k) d := by
      unfold engineStates
      rw [htake, statesFold_append]
      rfl
    rw [hstep, stepTranches_get?] at ht
    cases hjk : (engineStates df_disb df_payments df_rate_schedule dr emi start maxM sy k).get? j with
    | none => rw [hjk] at ht; simp at ht
    | some tk =>
      rw [hjk] at ht
      simp only [Option.map_some', Option.some.injEq] at ht
      have hmeta := statesFold_meta ⟨df_rate_schedule, dr, emi, sy⟩
        (List.insertionSort payRowLe df_payments)
        ((periodDates start maxM).take k) (buildTranches df_disb) j
      have hmeta2 : (some tk).map (fun t => t.disbursement_date) =
          (some t0).map (fun t => t.disbursement_date) := by
        rw [← hjk, ← ht0]
        exact hmeta
      simp only [Option.map_some', Option.some.injEq] at hmeta2
      have hphase2 : ¬ d < simplePhaseEnd sy tk := by
        unfold simplePhaseEnd at hphase ⊢
        rw [hmeta2]
        exact hphase
      have hmem : tk ∈ engineStates df_disb df_payments df_rate_schedule dr emi start maxM sy k :=
        List.get?_mem hjk
      have hvt := engineStates_valid df_disb df_payments df_rate_schedule dr emi start maxM sy k hv
      obtain ⟨hi0, hile, hp0, hple⟩ := tranchePaid_bounds ⟨df_rate_schedule, dr, emi, sy⟩
        (List.insertionSort payRowLe df_payments) d
        (engineStates df_disb df_payments df_rate_schedule dr emi start maxM sy k) tk hvp hvt hmem
      have hzero := (applyPayment_valid sy d _ _ _ tk (hvt tk hmem).1 (hvt tk hmem).2
        hile hple).2.2 hphase2
      rw [← ht]
      exact hzero
  · intro t htpos
    unfold capitalize
    rw [if_pos htpos]
    exact ⟨rfl, rfl⟩

set_option maxHeartbeats 2000000 in
/-- C2 (witness).  A concrete compound-phase period: the tranche disbursed
2020-01-01 with a one-year simple window is past its window on 2025-01-01, and
after the period's update its accrued simple interest is zero. -/
theorem claim_C2_witness :
    (engineStates [⟨⟨2020, 1, 1⟩, 100⟩] [] [] 0 0 ⟨2025, 1, 1⟩ 0 1 1).get? 0
        = some ⟨0, ⟨2020, 1, 1⟩, 100, 0⟩
    ∧ (⟨0, ⟨2020, 1, 1⟩, 100, 0⟩ : Tranche).accrued_simple_interest = 0 := by
  have hst : (engineStates [⟨⟨2020, 1, 1⟩, 100⟩] [] [] 0 0 ⟨2025, 1, 1⟩ 0 1 1).get? 0
      = some ⟨0, ⟨2020, 1, 1⟩, 100, 0⟩ := by
    norm_num [engineStates, statesFold, stepTranches, periodStep, buildTranches,
      periodDates, lumpsumOn, sumPos, interestFor, tranchePaidInterest, tranchePaidPrincipal,
      interestPaidFor, principalPaidFor, applyPayment, capitalize, simplePhaseEnd,
      get_annual_rate_for_date, Date.addMonths, firstOfMonth, daysInMonth,
      List.insertionSort, List.orderedInsert, List.range_succ, Date.lt_def, Date.le_def]
  refine ⟨hst, ?_⟩
  exact (claim_C2_phase_transition_exactness [⟨⟨2020, 1, 1⟩, 100⟩] [] [] 0 0
      ⟨2025, 1, 1⟩ 0 1 (by decide)).1 0 ⟨2025, 1, 1⟩ 0 ⟨0, ⟨2020, 1, 1⟩, 100, 0⟩
      ⟨0, ⟨2020, 1, 1⟩, 100, 0⟩
      (by rw [engine_eq_runAux]
          have hpd : periodDates ⟨2025, 1, 1⟩ 0 = [⟨2025, 1, 1⟩] := by decide
          rw [hpd]
          exact List.length_pos.mpr (runAux_ne_nil _ _ _ _ _ _))
      (by decide) (by decide) (by decide) hst

theorem periodDates_length_of_day_ne_one (start : Date) (m : Nat) (h : start.day ≠ 1) :
    (periodDates start m).length = m := by
  unfold periodDates
  simp [h]

/-- C5 (amended).  The engine emits at most max_months + 1 period records
(at most max_months when the start date is not the first of a month); records
carry 1-based consecutive period indices and the k-th record is dated the k-th
calendar month first of the period grid. -/
theorem claim_C5_period_count_amended (df_disb : List DisbRow)
    (df_payments : List PayRow) (df_rate_schedule : List RateRow)
    (dr emi : ℚ) (start : Date) (maxM sy : Nat) :
    (separate_disbursements_amortization df_disb df_payments df_rate_schedule
        dr emi start maxM sy).1.length ≤ maxM + 1
    ∧ (start.day ≠ 1 →
        (separate_disbursements_amortization df_disb df_payments df_rate_schedule
            dr emi start maxM sy).1.length ≤ maxM)
    ∧ (∀ k row,
        (separate_disbursements_amortization df_disb df_payments df_rate_schedule
            dr emi start maxM sy).1.get? k = some row →
        row.period = k + 1 ∧ (periodDates start maxM).get? k = some row.date) := by
  refine ⟨?_, ?_, ?_⟩
  · rw [engine_eq_runAux]
    exact le_trans (runAux_length_le _ _ _ _ _) (periodDates_length start maxM)
  · intro hday
    rw [engine_eq_runAux]
    have h := runAux_length_le ⟨df_rate_schedule, dr, emi, sy⟩
      (List.insertionSort payRowLe df_payments) (periodDates start maxM) 1
      (buildTranches df_disb)
    rwa [periodDates_length_of_day_ne_one start maxM hday] at h
  · intro k row hrow
    rw [engine_eq_runAux] at hrow
    obtain ⟨d, hd, hrw⟩ := runAux_get? _ _ _ _ _ _ _ hrow
    subst hrw
    refine ⟨?_, ?_⟩
    · show 1 + k = k + 1
      omega
    · rw [hd]
      rfl

set_option maxHeartbeats 2000000 in
/-- C5 (counterexample).  The claim bounds the schedule by max_periods records,
but with max_months = 1 and a month-first start the grid holds two month
firsts, and a run that never retires emits both: two records exceed
max_periods = 1. -/
theorem claim_C5_counterexample :
    ¬ ((separate_disbursements_amortization [⟨⟨2020, 1, 1⟩, 100⟩] [] [] 0 0
        ⟨2025, 1, 1⟩ 1 1).1.length ≤ 1) := by
  have h : (separate_disbursements_amortization [⟨⟨2020, 1, 1⟩, 100⟩] [] [] 0 0
      ⟨2025, 1, 1⟩ 1 1).1.length = 2 := by
    norm_num [separate_disbursements_amortization, runAux, periodStep, buildTranches,
      periodDates, lumpsumOn, sumPos, interestFor, tranchePaidInterest, tranchePaidPrincipal,
      interestPaidFor, principalPaidFor, applyPayment, capitalize, simplePhaseEnd, stopCond,
      get_annual_rate_for_date, Date.addMonths, firstOfMonth, daysInMonth,
      List.insertionSort, List.orderedInsert, List.range_succ, Date.lt_def, Date.le_def]
  omega

set_option maxHeartbeats 2000000 in
/-- C5 (witness).  With a mid-month start the grid has max_months dates, so a
run emits at most max_months records; and the first emitted record of a
concrete run carries period index 1. -/
theorem claim_C5_witness :
    (separate_disbursements_amortization [⟨⟨2020, 1, 1⟩, 100⟩] [] [] 0 0
        ⟨2025, 1, 15⟩ 1 1).1.length ≤ 1
    ∧ (⟨1, ⟨2025, 2, 1⟩, 0, 0, 0, 0, 100, 0⟩ : Row).period = 0 + 1 := by
  have hrow : (separate_disbursements_amortization [⟨⟨2020, 1, 1⟩, 100⟩] [] [] 0 0
      ⟨2025, 1, 15⟩ 1 1).1.get? 0 = some ⟨1, ⟨2025, 2, 1⟩, 0, 0, 0, 0, 100, 0⟩ := by
    norm_num [separate_disbursements_amortization, runAux, periodStep, buildTranches,
      periodDates, lumpsumOn, sumPos, interestFor, tranchePaidInterest, tranchePaidPrincipal,
      interestPaidFor, principalPaidFor, applyPayment, capitalize, simplePhaseEnd, stopCond,
      get_annual_rate_for_date, Date.addMonths, firstOfMonth, daysInMonth,
      List.insertionSort, List.orderedInsert, List.range_succ, Date.lt_def, Date.le_def]
  exact ⟨(claim_C5_period_count_amended [⟨⟨2020, 1, 1⟩, 100⟩] [] [] 0 0
      ⟨2025, 1, 15⟩ 1 1).2.1 (by decide),
    ((claim_C5_period_count_amended [⟨⟨2020, 1, 1⟩, 100⟩] [] [] 0 0
      ⟨2025, 1, 15⟩ 1 1).2.2 0 ⟨1, ⟨2025, 2, 1⟩, 0, 0, 0, 0, 100, 0⟩ hrow).1⟩

/-- C4 (amended).  The engine stops before exhausting the period grid exactly
when some emitted row other than the grid's final one reports both ending
balances below 1e-8; when no such row exists the loop consumes the whole grid
and the full schedule is still returned (there is no error path). -/
theorem claim_C4_early_termination_amended (df_disb : List DisbRow)
    (df_payments : List PayRow) (df_rate_schedule : List RateRow)
    (dr emi : ℚ) (start : Date) (maxM sy : Nat) :
    ((separate_disbursements_amortization df_disb df_payments df_rate_schedule
          dr emi start maxM sy).1.length < (periodDates start maxM).length ↔
      ∃ k row,
        (separate_disbursements_amortization df_disb df_payments df_rate_schedule
            dr emi start maxM sy).1.get? k = some row ∧
        k + 1 < (periodDates start maxM).length ∧ stopCond row)
    ∧ (separate_disbursements_amortization df_disb df_payments df_rate_schedule
          dr emi start maxM sy).1.length ≤ (periodDates start maxM).length
    ∧ ((∀ k row,
          (separate_disbursements_amortization df_disb df_payments df_rate_schedule
              dr emi start maxM sy).1.get? k = some row →
          ¬ (k + 1 < (periodDates start maxM).length ∧ stopCond row)) →
        (separate_disbursements_amortization df_disb df_payments df_rate_schedule
            dr emi start maxM sy).1.length = (periodDates start maxM).length) := by
  rw [engine_eq_runAux]
  refine ⟨runAux_early_iff _ _ _ _ _, runAux_length_le _ _ _ _ _, ?_⟩
  intro hnone
  have hle := runAux_length_le ⟨df_rate_schedule, dr, emi, sy⟩
    (List.insertionSort payRowLe df_payments) (periodDates start maxM) 1
    (buildTranches df_disb)
  by_contra hne
  have hlt : (runAux ⟨df_rate_schedule, dr, emi, sy⟩
      (List.insertionSort payRowLe df_payments) (periodDates start maxM) 1
      (buildTranches df_disb)).1.length < (periodDates start maxM).length := by
    omega
  obtain ⟨k, row, hget, hk1, hrow⟩ := (runAux_early_iff _ _ _ _ _).mp hlt
  exact hnone k row hget ⟨hk1, hrow⟩

set_option maxHeartbeats 2000000 in
/-- C4 (counterexample).  The claim's iff omits the boundary case: a loan
retired exactly at the final grid date satisfies the stop test at the end of
an emitted period, yet the engine does not stop before the grid is exhausted.
One tranche of 100 at EMI 50 over a two-date grid retires at period 2, the
final date. -/
theorem claim_C4_counterexample :
    ¬ (((separate_disbursements_amortization [⟨⟨2020, 1, 1⟩, 100⟩] [] [] 0 50
          ⟨2025, 1, 1⟩ 1 1).1.length < (periodDates ⟨2025, 1, 1⟩ 1).length) ↔
        ∃ k row,
          (separate_disbursements_amortization [⟨⟨2020, 1, 1⟩, 100⟩] [] [] 0 50
              ⟨2025, 1, 1⟩ 1 1).1.get? k = some row ∧ stopCond row) := by
  have hE : (separate_disbursements_amortization [⟨⟨2020, 1, 1⟩, 100⟩] [] [] 0 50
      ⟨2025, 1, 1⟩ 1 1).1 =
        [⟨1, ⟨2025, 1, 1⟩, 0, 0, 50, 0, 50, 0⟩, ⟨2, ⟨2025, 2, 1⟩, 0, 0, 50, 0, 0, 0⟩] := by
    norm_num [separate_disbursements_amortization, runAux, periodStep, buildTranches,
      periodDates, lumpsumOn, sumPos, interestFor, tranchePaidInterest, tranchePaidPrincipal,
      interestPaidFor, principalPaidFor, applyPayment, capitalize, simplePhaseEnd, stopCond,
      get_annual_rate_for_date, Date.addMonths, firstOfMonth, daysInMonth,
      List.insertionSort, List.orderedInsert, List.range_succ, Date.lt_def, Date.le_def]
  have hds : (periodDates ⟨2025, 1, 1⟩ 1).length = 2 := by decide
  intro hiff
  rw [hE, hds] at hiff
  have hstop : stopCond ⟨2, ⟨2025, 2, 1⟩, 0, 0, 50, 0, 0, 0⟩ := by
    constructor <;> norm_num [stopCond]
  have hlt := hiff.mpr ⟨1, ⟨2, ⟨2025, 2, 1⟩, 0, 0, 50, 0, 0, 0⟩, rfl, hstop⟩
  simp at hlt

set_option maxHeartbeats 2000000 in
/-- C4 (witness).  A run that never passes the stop test consumes the whole
grid: the full schedule is returned with its residual balances. -/
theorem claim_C4_witness :
    (separate_disbursements_amortization [⟨⟨2020, 1, 1⟩, 100⟩] [] [] 0 0
        ⟨2025, 1, 1⟩ 1 1).1.length = (periodDates ⟨2025, 1, 1⟩ 1).length := by
  have hE : (separate_disbursements_amortization [⟨⟨2020, 1, 1⟩, 100⟩] [] [] 0 0
      ⟨2025, 1, 1⟩ 1 1).1 =
        [⟨1, ⟨2025, 1, 1⟩, 0, 0, 0, 0, 100, 0⟩, ⟨2, ⟨2025, 2, 1⟩, 0, 0, 0, 0, 100, 0⟩] := by
    norm_num [separate_disbursements_amortization, runAux, periodStep, buildTranches,
      periodDates, lumpsumOn, sumPos, interestFor, tranchePaidInterest, tranchePaidPrincipal,
      interestPaidFor, principalPaidFor, applyPayment, capitalize, simplePhaseEnd, stopCond,
      get_annual_rate_for_date, Date.addMonths, firstOfMonth, daysInMonth,
      List.insertionSort, List.orderedInsert, List.range_succ, Date.lt_def, Date.le_def]
  apply (claim_C4_early_termination_amended [⟨⟨2020, 1, 1⟩, 100⟩] [] [] 0 0
    ⟨2025, 1, 1⟩ 1 1).2.2
  intro k row hget hbad
  rw [hE] at hget
  match k, hget with
  | 0, hget =>
    simp only [List.get?_cons_zero, Option.some.injEq] at hget
    subst hget
    have := hbad.2.1
    norm_num at this
  | 1, hget =>
    simp only [List.get?_cons_succ, List.get?_cons_zero, Option.some.injEq] at hget
    subst hget
    have := hbad.2.1
    norm_num at this
  | (n + 2), hget => simp at hget

/-- C8 (amended).  The engine performs no input validation: whatever the
inputs, it never fails, and whenever the period grid is nonempty it emits at
least one period record, computing the schedule from the data as given. -/
theorem claim_C8_no_validation_amended (df_disb : List DisbRow)
    (df_payments : List PayRow) (df_rate_schedule : List RateRow)
    (dr emi : ℚ) (start : Date) (maxM sy : Nat) :
    periodDates start maxM ≠ [] →
    (separate_disbursements_amortization df_disb df_payments df_rate_schedule
        dr emi start maxM sy).1 ≠ [] := by
  intro h
  rw [engine_eq_runAux]
  cases hds : periodDates start maxM with
  | nil => exact absurd hds h
  | cons d ds =>
    exact runAux_ne_nil _ _ _ _ _ _

set_option maxHeartbeats 2000000 in
/-- C8 (counterexample).  The claim requires an input-validation failure
before any period record is emitted when a malformed (negative-amount) row is
received; the code instead proceeds and emits a period record computed from
the invalid data. -/
theorem claim_C8_counterexample :
    (separate_disbursements_amortization [⟨⟨2020, 1, 1⟩, -100⟩] [] [] 0 0
        ⟨2025, 1, 1⟩ 0 1).1.length = 1 := by
  norm_num [separate_disbursements_amortization, runAux, periodStep, buildTranches,
    periodDates, lumpsumOn, sumPos, interestFor, tranchePaidInterest, tranchePaidPrincipal,
    interestPaidFor, principalPaidFor, applyPayment, capitalize, simplePhaseEnd, stopCond,
    get_annual_rate_for_date, Date.addMonths, firstOfMonth, daysInMonth,
    List.insertionSort, List.orderedInsert, List.range_succ, Date.lt_def, Date.le_def]

/-- C8 (witness).  A run with max_months = 0 (a non-positive period limit the
claim says must be rejected) still has a one-date grid and emits a record. -/
theorem claim_C8_witness :
    periodDates ⟨2025, 1, 1⟩ 0 ≠ []
    ∧ (separate_disbursements_amortization [⟨⟨2020, 1, 1⟩, 100⟩] [] [] 0 0
        ⟨2025, 1, 1⟩ 0 1).1 ≠ [] :=
  ⟨by decide,
   claim_C8_no_validation_amended [⟨⟨2020, 1, 1⟩, 100⟩] [] [] 0 0 ⟨2025, 1, 1⟩ 0 1
     (by decide)⟩

/-- C7 (witness).  A one-row schedule on or before the query date: the
resolver picks that row's rate, and the row is maximal. -/
theorem claim_C7_witness :
    (∃ e ∈ [(⟨⟨2025, 1, 1⟩, (1 : ℚ)⟩ : RateRow)], e.effective_date ≤ ⟨2025, 6, 1⟩)
    ∧ ∃ e ∈ [(⟨⟨2025, 1, 1⟩, (1 : ℚ)⟩ : RateRow)], e.effective_date ≤ ⟨2025, 6, 1⟩
        ∧ get_annual_rate_for_date ⟨2025, 6, 1⟩ [⟨⟨2025, 1, 1⟩, 1⟩] 0 = e.annual_rate
        ∧ ∀ f ∈ [(⟨⟨2025, 1, 1⟩, (1 : ℚ)⟩ : RateRow)], f.effective_date ≤ ⟨2025, 6, 1⟩ →
            f.effective_date ≤ e.effective_date :=
  ⟨by decide,
   (claim_C7_rate_resolver_selection ⟨2025, 6, 1⟩ [⟨⟨2025, 1, 1⟩, 1⟩] 0).2.2 (by decide)⟩

/-! ## Payments only enter a run through the lumpsum of a period date -/

theorem lumpsumOn_perm (pays1 pays2 : List PayRow) (h : pays1.Perm pays2) (d : Date) :
    lumpsumOn pays1 d = lumpsumOn pays2 d := by
  unfold lumpsumOn
  exact ((h.filter _).map _).sum_eq

theorem lumpsumOn_append_singleton (pays : List PayRow) (pay : PayRow) (d : Date)
    (h : pay.payment_date ≠ d) :
    lumpsumOn (pays ++ [pay]) d = lumpsumOn pays d := by
  unfold lumpsumOn
  rw [List.filter_append]
  have hnil : List.filter (fun p => decide (p.payment_date = d)) [pay] = [] := by
    simp [h]
  rw [hnil, List.append_nil]

theorem tranchePaidInterest_congr (P : Params) (pays1 pays2 : List PayRow)
    (d : Date) (ts : List Tranche) (h : lumpsumOn pays1 d = lumpsumOn pays2 d) :
    tranchePaidInterest P pays1 d ts = tranchePaidInterest P pays2 d ts := by
  funext t
  unfold tranchePaidInterest
  rw [h]

theorem periodStep_congr (P : Params) (pays1 pays2 : List PayRow) (idx : Nat)
    (d : Date) (ts : List Tranche) (h : lumpsumOn pays1 d = lumpsumOn pays2 d) :
    periodStep P pays1 idx d ts = periodStep P pays2 idx d ts := by
  unfold periodStep tranchePaidPrincipal
  rw [tranchePaidInterest_congr P pays1 pays2 d ts h, h]

theorem runAux_congr (P : Params) (pays1 pays2 : List PayRow) :
    ∀ (ds : List Date) (idx : Nat) (ts : List Tranche),
      (∀ d ∈ ds, lumpsumOn pays1 d = lumpsumOn pays2 d) →
      runAux P pays1 ds idx ts = runAux P pays2 ds idx ts := by
  intro ds
  induction ds with
  | nil => intro idx ts _; rfl
  | cons d ds ih =>
    intro idx ts h
    have hstep := periodStep_congr P pays1 pays2 idx d ts (h d (List.mem_cons_self d ds))
    have htail : ∀ d2 ∈ ds, lumpsumOn pays1 d2 = lumpsumOn pays2 d2 :=
      fun d2 hd2 => h d2 (List.mem_cons_of_mem d hd2)
    by_cases hstop : stopCond (periodStep P pays1 idx d ts).1
    · rw [runAux_cons_stop P pays1 d ds idx ts hstop,
        runAux_cons_stop P pays2 d ds idx ts (hstep ▸ hstop), hstep]
    · rw [runAux_cons_go P pays1 d ds idx ts hstop,
        runAux_cons_go P pays2 d ds idx ts (hstep ▸ hstop), hstep,
        ih (idx + 1) (periodStep P pays2 idx d ts).2 htail]

/-- C10.  A lumpsum dated off the period grid is never applied: adding it to
the payment table leaves the whole run output unchanged; and when the start
date is not the first of a month, the start date itself is not on the grid. -/
theorem claim_C10_offgrid_lumpsum_ignored (df_disb : List DisbRow)
    (df_payments : List PayRow) (df_rate_schedule : List RateRow)
    (dr emi : ℚ) (start : Date) (maxM sy : Nat) (pay : PayRow)
    (hpay : pay.payment_date ∉ periodDates start maxM) :
    separate_disbursements_amortization df_disb (df_payments ++ [pay])
        df_rate_schedule dr emi start maxM sy
      = separate_disbursements_amortization df_disb df_payments df_rate_schedule
          dr emi start maxM sy
    ∧ (start.day ≠ 1 → start ∉ periodDates start maxM) := by
  constructor
  · rw [engine_eq_runAux, engine_eq_runAux]
    apply runAux_congr
    intro d hd
    have hne : pay.payment_date ≠ d := fun he => hpay (he ▸ hd)
    calc lumpsumOn (List.insertionSort payRowLe (df_payments ++ [pay])) d
        = lumpsumOn (df_payments ++ [pay]) d :=
          lumpsumOn_perm _ _ (List.perm_insertionSort _ _) d
      _ = lumpsumOn df_payments d := lumpsumOn_append_singleton _ _ _ hne
      _ = lumpsumOn (List.insertionSort payRowLe df_payments) d :=
          (lumpsumOn_perm _ _ (List.perm_insertionSort _ _) d).symm
  · intro hday hmem
    exact hday (periodDates_day_one start maxM start hmem)

/-- C10 (witness).  A payment on 2025-01-20 is off the grid of a run starting
2025-01-15, so adding it changes nothing; and the mid-month start date is not
itself a period date. -/
theorem claim_C10_witness :
    separate_disbursements_amortization [⟨⟨2020, 1, 1⟩, 100⟩]
        ([] ++ [⟨⟨2025, 1, 20⟩, 5⟩]) [] 0 0 ⟨2025, 1, 15⟩ 1 1
      = separate_disbursements_amortization [⟨⟨2020, 1, 1⟩, 100⟩] [] [] 0 0
          ⟨2025, 1, 15⟩ 1 1
    ∧ ⟨2025, 1, 15⟩ ∉ periodDates ⟨2025, 1, 15⟩ 1 :=
  ⟨(claim_C10_offgrid_lumpsum_ignored [⟨⟨2020, 1, 1⟩, 100⟩] [] [] 0 0
      ⟨2025, 1, 15⟩ 1 1 ⟨⟨2025, 1, 20⟩, 5⟩ (by decide)).1,
   (claim_C10_offgrid_lumpsum_ignored [⟨⟨2020, 1, 1⟩, 100⟩] [] [] 0 0
      ⟨2025, 1, 15⟩ 1 1 ⟨⟨2025, 1, 20⟩, 5⟩ (by decide)).2 (by decide)⟩

/-! ## The binary search tests exactly its midpoint trail -/

theorem emiSearchTested_bounds (p : Int → Bool) :
    ∀ (l r : Int), ∀ m ∈ emiSearchTested p l r, l ≤ m ∧ m ≤ r := by
  intro l r
  induction l, r using emiSearchTested.induct p with
  | case1 l r hlr mid hp ih =>
    intro m hm
    rw [emiSearchTested, if_pos hlr] at hm
    simp only [if_pos hp] at hm
    rcases List.mem_cons.mp hm with rfl | hm2
    · omega
    · have := ih m hm2
      omega
  | case2 l r hlr mid hp ih =>
    intro m hm
    rw [emiSearchTested, if_pos hlr] at hm
    simp only [if_neg hp] at hm
    rcases List.mem_cons.mp hm with rfl | hm2
    · omega
    · have := ih m hm2
      omega
  | case3 l r hlr =>
    intro m hm
    rw [emiSearchTested, if_neg hlr] at hm
    simp at hm

theorem emiSearchTested_head (p : Int → Bool) (l r : Int) (hlr : l ≤ r) :
    (l + r) / 2 ∈ emiSearchTested p l r := by
  rw [emiSearchTested, if_pos hlr]
  by_cases hp : p ((l + r) / 2) = true
  · simp only [if_pos hp]
    exact List.mem_cons_self _ _
  · simp only [if_neg hp]
    exact List.mem_cons_self _ _

theorem emiSearchTested_tail_pos (p : Int → Bool) (l r : Int) (hlr : l ≤ r)
    (hp : p ((l + r) / 2) = true) (m : Int)
    (hm : m ∈ emiSearchTested p l ((l + r) / 2 - 1)) :
    m ∈ emiSearchTested p l r := by
  rw [emiSearchTested, if_pos hlr]
  simp only [if_pos hp]
  exact List.mem_cons_of_mem _ hm

theorem emiSearchTested_tail_neg (p : Int → Bool) (l r : Int) (hlr : l ≤ r)
    (hp : ¬ p ((l + r) / 2) = true) (m : Int)
    (hm : m ∈ emiSearchTested p ((l + r) / 2 + 1) r) :
    m ∈ emiSearchTested p l r := by
  rw [emiSearchTested, if_pos hlr]
  simp only [if_neg hp]
  exact List.mem_cons_of_mem _ hm

theorem emiSearch_of_all_fail (p : Int → Bool) :
    ∀ (l r best : Int), (∀ m ∈ emiSearchTested p l r, p m = false) →
      emiSearch p l r best = best := by
  intro l r best
  induction l, r, best using emiSearch.induct p with
  | case1 l r best hlr mid hp ih =>
    have hmid : mid = (l + r) / 2 := rfl
    clear_value mid
    subst hmid
    intro h
    exfalso
    have hfalse := h _ (emiSearchTested_head p l r hlr)
    rw [hp] at hfalse
    simp at hfalse
  | case2 l r best hlr mid hp ih =>
    have hmid : mid = (l + r) / 2 := rfl
    clear_value mid
    subst hmid
    intro h
    rw [emiSearch, if_pos hlr]
    simp only [if_neg hp]
    exact ih (fun m hm => h m (emiSearchTested_tail_neg p l r hlr hp m hm))
  | case3 l r best hlr =>
    intro _
    rw [emiSearch, if_neg hlr]

theorem emiSearch_min (p : Int → Bool) :
    ∀ (l r best : Int), (∃ m ∈ emiSearchTested p l r, p m = true) →
      emiSearch p l r best ∈ emiSearchTested p l r
      ∧ p (emiSearch p l r best) = true
      ∧ ∀ m ∈ emiSearchTested p l r, p m = true → emiSearch p l r best ≤ m := by
  intro l r best
  induction l, r, best using emiSearch.induct p with
  | case1 l r best hlr mid hp ih =>
    have hmid : mid = (l + r) / 2 := rfl
    clear_value mid
    subst hmid
    intro hex
    rw [emiSearch, if_pos hlr]
    simp only [if_pos hp]
    by_cases hsucc : ∃ m ∈ emiSearchTested p l ((l + r) / 2 - 1), p m = true
    · obtain ⟨hmem, hpr, hmin⟩ := ih hsucc
      refine ⟨emiSearchTested_tail_pos p l r hlr hp _ hmem, hpr, ?_⟩
      intro m hm hpm
      rw [emiSearchTested, if_pos hlr] at hm
      simp only [if_pos hp] at hm
      rcases List.mem_cons.mp hm with rfl | hm2
      · have hb := emiSearchTested_bounds p l ((l + r) / 2 - 1) _ hmem
        omega
      · exact hmin m hm2 hpm
    · have hall : ∀ m ∈ emiSearchTested p l ((l + r) / 2 - 1), p m = false := by
        intro m hm
        by_contra hne
        exact hsucc ⟨m, hm, by revert hne; cases p m <;> simp⟩
      rw [emiSearch_of_all_fail p l ((l + r) / 2 - 1) ((l + r) / 2) hall]
      refine ⟨emiSearchTested_head p l r hlr, hp, ?_⟩
      intro m hm hpm
      rw [emiSearchTested, if_pos hlr] at hm
      simp only [if_pos hp] at hm
      rcases List.mem_cons.mp hm with rfl | hm2
      · exact le_refl _
      · exact absurd (hall m hm2) (by rw [hpm]; simp)
  | case2 l r best hlr mid hp ih =>
    have hmid : mid = (l + r) / 2 := rfl
    clear_value mid
    subst hmid
    intro hex
    rw [emiSearch, if_pos hlr]
    simp only [if_neg hp]
    have hex2 : ∃ m ∈ emiSearchTested p ((l + r) / 2 + 1) r, p m = true := by
      obtain ⟨m, hm, hpm⟩ := hex
      rw [emiSearchTested, if_pos hlr] at hm
      simp only [if_neg hp] at hm
      rcases List.mem_cons.mp hm with rfl | hm2
      · exact absurd hpm hp
      · exact ⟨m, hm2, hpm⟩
    obtain ⟨hmem, hpr, hmin⟩ := ih hex2
    refine ⟨emiSearchTested_tail_neg p l r hlr hp _ hmem, hpr, ?_⟩
    intro m hm hpm
    rw [emiSearchTested, if_pos hlr] at hm
    simp only [if_neg hp] at hm
    rcases List.mem_cons.mp hm with rfl | hm2
    · exact absurd hpm hp
    · exact hmin m hm2 hpm
  | case3 l r best hlr =>
    intro hex
    exfalso
    obtain ⟨m, hm, -⟩ := hex
    rw [emiSearchTested, if_neg hlr] at hm
    simp at hm

/-- Every emitted period record carries a period index of at least 1 (indices
start at 1). -/
theorem run_period_pos (df_disb : List DisbRow) (df_payments : List PayRow)
    (df_rate_schedule : List RateRow) (dr emi : ℚ) (start : Date) (maxM sy : Nat) :
    ∀ row ∈ (separate_disbursements_amortization df_disb df_payments
        df_rate_schedule dr emi start maxM sy).1, 1 ≤ row.period := by
  intro row hrow
  rw [engine_eq_runAux, List.mem_iff_get?] at hrow
  obtain ⟨k, hk⟩ := hrow
  obtain ⟨d, hd, hrw⟩ := runAux_get? _ _ _ _ _ _ _ hk
  subst hrw
  show 1 ≤ 1 + k
  omega

/-- C6.  Target-payment search: the search tests exactly the midpoints of the
integer binary search over [0, 300000]; when some tested payment succeeds, the
returned payment is a tested success that is at most every tested success;
when every tested payment fails, the upper bound 300000 is returned; and a
trial whose engine schedule is empty counts as a failure. -/
theorem claim_C6_target_payment_search (df_disb : List DisbRow)
    (df_payments : List PayRow) (df_rate_schedule : List RateRow)
    (dr : ℚ) (start : Date) (maxM sy target : Nat) :
    ((∃ m ∈ emiSearchTested (emiTrialOk df_disb df_payments df_rate_schedule dr
          start maxM sy target) 0 300000,
        emiTrialOk df_disb df_payments df_rate_schedule dr start maxM sy target m = true) →
      (find_required_emi_for_target_months df_disb df_payments df_rate_schedule dr
          start maxM sy target
        ∈ emiSearchTested (emiTrialOk df_disb df_payments df_rate_schedule dr
            start maxM sy target) 0 300000
      ∧ emiTrialOk df_disb df_payments df_rate_schedule dr start maxM sy target
          (find_required_emi_for_target_months df_disb df_payments df_rate_schedule dr
            start maxM sy target) = true
      ∧ ∀ m ∈ emiSearchTested (emiTrialOk df_disb df_payments df_rate_schedule dr
            start maxM sy target) 0 300000,
          emiTrialOk df_disb df_payments df_rate_schedule dr start maxM sy target m = true →
          find_required_emi_for_target_months df_disb df_payments df_rate_schedule dr
            start maxM sy target ≤ m))
    ∧ ((∀ m ∈ emiSearchTested (emiTrialOk df_disb df_payments df_rate_schedule dr
          start maxM sy target) 0 300000,
        emiTrialOk df_disb df_payments df_rate_schedule dr start maxM sy target m = false) →
      find_required_emi_for_target_months df_disb df_payments df_rate_schedule dr
        start maxM sy target = 300000)
    ∧ (∀ m : Int,
        (separate_disbursements_amortization df_disb df_payments df_rate_schedule dr
            (m : ℚ) start maxM sy).1 = [] →
        emiTrialOk df_disb df_payments df_rate_schedule dr start maxM sy target m = false) := by
  refine ⟨?_, ?_, ?_⟩
  · intro hex
    exact emiSearch_min _ 0 300000 300000 hex
  · intro hall
    exact emiSearch_of_all_fail _ 0 300000 300000 hall
  · intro m hempty
    unfold emiTrialOk
    rw [decide_eq_false_iff_not]
    unfold retiresWithin
    rw [hempty]
    simp

/-- A run whose schedule rows all have period index at least 1 can never
satisfy a target of 0 months. -/
theorem retiresWithin_zero_false (out : List Row × List Tranche)
    (hpos : ∀ row ∈ out.1, 1 ≤ row.period) : ¬ retiresWithin out 0 := by
  unfold retiresWithin
  cases hlast : out.1.getLast? with
  | none => simp
  | some r =>
    have hp := hpos r (mem_of_getLast_some hlast)
    simp only
    rintro ⟨-, -, hle⟩
    omega

/-- C6 (witness).  With target 0 every trial fails (an emitted schedule always
has a last period index of at least 1, and an empty schedule also fails), so
the search returns the upper bound 300000. -/
theorem claim_C6_witness :
    find_required_emi_for_target_months [⟨⟨2020, 1, 1⟩, 100⟩] [] [] 0
      ⟨2025, 1, 1⟩ 1 1 0 = 300000 := by
  apply (claim_C6_target_payment_search [⟨⟨2020, 1, 1⟩, 100⟩] [] [] 0
    ⟨2025, 1, 1⟩ 1 1 0).2.1
  intro m hm
  unfold emiTrialOk
  exact decide_eq_false (retiresWithin_zero_false _
    (run_period_pos [⟨⟨2020, 1, 1⟩, 100⟩] [] [] 0 (m : ℚ) ⟨2025, 1, 1⟩ 1 1))
